import Mathlib

/-!
# Verification of the 4x4 agent/block puzzle solver (`src/agent/main.cc`)

This file gives a shallow embedding of the puzzle solver: the board
representation, the move generator `make_next_state` with its per-branch
cycle rejection, the heuristic `calc_score`, the breadth-first searcher
`breadthFirst` and the priority searcher `aStar`, together with theorems
about path reconstruction, optimality, termination and the invariants of
the board data model.

Modelling conventions:
* `std::array<char, 16>` becomes `List Char`; boards of interest satisfy
  `length = 16` and contain exactly one agent marker, stated as explicit
  hypotheses where a theorem needs them.
* `std::hash<std::string>` is implementation defined; it is modelled as an
  explicit function parameter `hashFn : Board → Nat` (deterministic, as the
  one in the program is).  The cached member `hash_` of `PuzzleState`
  always equals the hash of the stored board, so `getHash` is modelled as
  `hashFn ∘ getState`.  A concrete injective instance `hashInj` is provided
  for evaluation.
* The C++ searchers are `while` loops; they are modelled with an explicit
  fuel argument, and `SearchResult.outOfFuel` marks fuel exhaustion.
  Termination theorems produce a fuel bound for which the loop finishes.
* `std::abs(indexP - i)` in `calc_score` acts on `size_t` values below 16,
  so the wrap-around subtraction followed by `abs` computes the absolute
  difference of the two indices; it is modelled as `Int.natAbs` of the
  difference.
-/

/-- The agent marker character `'*'` used throughout `main.cc`. -/
def agentChar : Char := '*'

/-- `typedef std::array<char, 16> Board`, modelled as a list of characters.
Boards produced by the program always have length 16. -/
abbrev Board := List Char

/-- `std::swap(state[index], state[newIndex])`: both cells are read first,
then written.  Out-of-range indices leave the list unchanged (the program
only ever swaps in-range cells). -/
def swapCells (b : Board) (i j : Nat) : Board :=
  (List.set (List.set b i (List.getD b j ' ')) j (List.getD b i ' '))

/-- `Move::type_t` without the defensive `UNKNOWN` value: the searchers only
ever cast `0..3`, and `UNKNOWN` would hit `assert(false)`. -/
inductive Move where
  | LEFT
  | UP
  | RIGHT
  | DOWN
deriving DecidableEq

/-- `class PuzzleState`: a board plus an optional owning pointer to the
predecessor state.  The cached hash member is recovered as `hashFn` applied
to the stored board. -/
inductive PuzzleState where
  | root (board : Board)
  | succ (parent : PuzzleState) (board : Board)
deriving DecidableEq

/-- `PuzzleState::getState`. -/
def PuzzleState.getState : PuzzleState → Board
  | .root b => b
  | .succ _ b => b

/-- `PuzzleState::getParent`; `none` models the null pointer of a root. -/
def PuzzleState.getParent : PuzzleState → Option PuzzleState
  | .root _ => none
  | .succ p _ => some p

/-- `PuzzleState::getHash`, i.e. the cached `make_hash` of the stored
board, for a given hash function. -/
def PuzzleState.getHash (hashFn : Board → Nat) (s : PuzzleState) : Nat :=
  hashFn s.getState

/-- The predecessor chain of a state, starting with the state itself and
ending with the search root. -/
def PuzzleState.chain : PuzzleState → List PuzzleState
  | .root b => [.root b]
  | .succ p b => .succ p b :: p.chain

/-- Number of predecessor links from a state back to the root: the move
count of the solution the state represents. -/
def PuzzleState.depth : PuzzleState → Nat
  | .root _ => 0
  | .succ p _ => p.depth + 1

/-- The boards along the predecessor chain, current board first. -/
def chainBoards (s : PuzzleState) : List Board :=
  s.chain.map PuzzleState.getState

/-- The board transformation of `make_next_state` (`main.cc` lines
136-171): locate the agent with `std::find`, bounds-check the direction,
and swap the agent cell with the target cell.  `none` models the null
pointer returned for an off-grid move. -/
def moveBoard (state : Board) (mv : Move) : Option Board :=
  let index := List.indexOf agentChar state
  let x := index % 4
  let y := index / 4
  match mv with
  | .LEFT => if x = 0 then none else some (swapCells state index (y * 4 + (x - 1)))
  | .RIGHT => if x = 3 then none else some (swapCells state index (y * 4 + (x + 1)))
  | .UP => if y = 0 then none else some (swapCells state index ((y - 1) * 4 + x))
  | .DOWN => if y = 3 then none else some (swapCells state index ((y + 1) * 4 + x))

/-- The cycle-rejection walk of `make_next_state` (lines 174-182): compare
the new board's hash against the cached hash of every state on the
predecessor chain of the expanded state, starting at the expanded state's
parent (`parent->getParent()` where `parent` is the expanded state). -/
def cycleHit (hashFn : Board → Nat) (parent : PuzzleState) (h : Nat) : Bool :=
  (parent.chain.drop 1).any (fun a => h == a.getHash hashFn)

/-- `make_next_state` (lines 135-185): apply the move to the expanded
state's board; reject off-grid moves and moves whose resulting board hash
matches an ancestor's cached hash; otherwise build the successor state. -/
def make_next_state (hashFn : Board → Nat) (parent : PuzzleState) (mv : Move) :
    Option PuzzleState :=
  match moveBoard parent.getState mv with
  | none => none
  | some state =>
    if cycleHit hashFn parent (hashFn state) then none
    else some (.succ parent state)

/-- Result of a searcher run under a fuel bound: the returned goal state, a
null pointer for frontier exhaustion, or fuel running out (the C++ loop
would keep going). -/
inductive SearchResult where
  | found (s : PuzzleState)
  | exhausted
  | outOfFuel
deriving DecidableEq

/-- The direction order `0..3` of the `for (int m = 0; m < 4; ++m)` loops. -/
def allMoves : List Move := [.LEFT, .UP, .RIGHT, .DOWN]

/-- The inner `for` loop of `breadthFirst` (lines 199-210): generate the
successors of `parent` in direction order; return the first one whose hash
equals the goal hash, pushing every other accepted successor to the front
of the deque. -/
def stepMoves (hashFn : Board → Nat) (goalHash : Nat) (parent : PuzzleState) :
    List Move → List PuzzleState → Option PuzzleState × List PuzzleState
  | [], queue => (none, queue)
  | mv :: ms, queue =>
    match make_next_state hashFn parent mv with
    | none => stepMoves hashFn goalHash parent ms queue
    | some next =>
      if next.getHash hashFn = goalHash then (some next, queue)
      else stepMoves hashFn goalHash parent ms (next :: queue)

/-- The `while (!search.empty())` loop of `breadthFirst` (lines 196-212):
the deque is a list whose head is the front (`push_front` is `cons`) and
whose last element is the back (`pop_back` removes it). -/
def bfsLoop (hashFn : Board → Nat) (goalHash : Nat) :
    Nat → List PuzzleState → SearchResult
  | 0, _ => .outOfFuel
  | fuel + 1, queue =>
    match queue.getLast? with
    | none => .exhausted
    | some parent =>
      match stepMoves hashFn goalHash parent allMoves queue.dropLast with
      | (some next, _) => .found next
      | (none, queue2) => bfsLoop hashFn goalHash fuel queue2

/-- `breadthFirst` (lines 187-214): check the start against the goal hash,
then run the FIFO loop seeded with the root state. -/
def breadthFirst (hashFn : Board → Nat) (start goal : Board) (fuel : Nat) :
    SearchResult :=
  let goalHash := hashFn goal
  let startState : PuzzleState := .root start
  if startState.getHash hashFn = goalHash then .found startState
  else bfsLoop hashFn goalHash fuel [startState]

/-- `calc_score` (lines 218-230): for every goal index whose symbol differs
from the state's symbol there, add the absolute difference between the flat
index of that symbol in the state (`std::find`, 16 when absent) and the
goal index.  The `size_t` subtraction wraps and `std::abs` undoes the wrap
for these small values, yielding the absolute difference. -/
def calc_score (puzzle : PuzzleState) (goal : Board) : Nat :=
  (List.range goal.length).foldl
    (fun ret i =>
      let c := List.getD goal i ' '
      if List.getD puzzle.getState i ' ' ≠ c then
        ret + ((List.indexOf c puzzle.getState : Int) - (i : Int)).natAbs
      else ret)
    0

/-- One summand of `calc_score`. -/
def scoreTerm (state goal : Board) (i : Nat) : Nat :=
  if List.getD state i ' ' ≠ List.getD goal i ' ' then
    ((List.indexOf (List.getD goal i ' ') state : Int) - (i : Int)).natAbs
  else 0

/-- Removal of the top of the A* priority queue: `std::priority_queue` with
comparator `lhs.second > rhs.second` pops an entry of minimal score.  The
standard leaves the order among equal scores unspecified; this model pops
the earliest-inserted entry of minimal score. -/
def popMin : List (PuzzleState × Nat) →
    Option ((PuzzleState × Nat) × List (PuzzleState × Nat))
  | [] => none
  | x :: xs =>
    match popMin xs with
    | none => some (x, [])
    | some (m, rest) => if x.2 ≤ m.2 then some (x, xs) else some (m, x :: rest)

/-- The inner `for` loop of `aStar` (lines 251-262): like `stepMoves`, but
accepted successors are pushed with their heuristic score. -/
def stepMovesA (hashFn : Board → Nat) (goalHash : Nat) (goal : Board)
    (parent : PuzzleState) :
    List Move → List (PuzzleState × Nat) →
      Option PuzzleState × List (PuzzleState × Nat)
  | [], frontier => (none, frontier)
  | mv :: ms, frontier =>
    match make_next_state hashFn parent mv with
    | none => stepMovesA hashFn goalHash goal parent ms frontier
    | some next =>
      if next.getHash hashFn = goalHash then (some next, frontier)
      else stepMovesA hashFn goalHash goal parent ms
        ((next, calc_score next goal) :: frontier)

/-- The `while (!search.empty())` loop of `aStar` (lines 248-264). -/
def aStarLoop (hashFn : Board → Nat) (goalHash : Nat) (goal : Board) :
    Nat → List (PuzzleState × Nat) → SearchResult
  | 0, _ => .outOfFuel
  | fuel + 1, frontier =>
    match popMin frontier with
    | none => .exhausted
    | some (best, rest) =>
      match stepMovesA hashFn goalHash goal best.1 allMoves rest with
      | (some next, _) => .found next
      | (none, frontier2) => aStarLoop hashFn goalHash goal fuel frontier2

/-- `aStar` (lines 238-266). -/
def aStar (hashFn : Board → Nat) (start goal : Board) (fuel : Nat) :
    SearchResult :=
  let goalHash := hashFn goal
  let startState : PuzzleState := .root start
  if startState.getHash hashFn = goalHash then .found startState
  else aStarLoop hashFn goalHash goal fuel
    [(startState, calc_score startState goal)]

/-- The solution sequence built by `print_search` (lines 278-296): record
the boards from the returned state back along predecessor links, then
traverse in reverse order. -/
def reconstruct (finish : PuzzleState) : List Board :=
  (chainBoards finish).reverse

/-- A board is valid when it has the 16 cells of the 4x4 grid and exactly
one agent marker (spec section 3 invariant). -/
def validBoard (b : Board) : Prop :=
  List.length b = 16 ∧ List.count agentChar b = 1

instance (b : Board) : Decidable (validBoard b) := by
  unfold validBoard; infer_instance

/-- One legal agent-swap move between boards. -/
def Step (b b2 : Board) : Prop := ∃ mv, moveBoard b mv = some b2

/-- `goal` is reachable from `start` in exactly `n` agent-swap moves. -/
def ReachableIn : Nat → Board → Board → Prop
  | 0, s, g => s = g
  | n + 1, s, g => ∃ b2, Step s b2 ∧ ReachableIn n b2 g

/-- `goal` is reachable from `start` by some sequence of agent moves. -/
def Reachable (s g : Board) : Prop := ∃ n, ReachableIn n s g

/-- The state's chain is a genuine search path: the root board is `start`
and every link is a legal move. -/
def ValidChain (start : Board) : PuzzleState → Prop
  | .root b => b = start
  | .succ p b => ValidChain start p ∧ Step p.getState b

/-- A concrete injective stand-in for `std::hash<std::string>`: base
1114112 digit encoding of the character codes, prefixed with 1. -/
def hashInj (b : Board) : Nat :=
  List.foldl (fun h c => h * 1114112 + c.toNat) 1 b

/-- A concrete everywhere-colliding stand-in for the hash, used to exhibit
the decisions the program makes purely on hash values. -/
def hashConst (_ : Board) : Nat := 0

/-! ## Basic board lemmas -/

theorem count_set_aux (l : List Char) (i : Nat) (a : Char) (h : i < l.length) (c : Char) :
    (l.set i a).count c + (if l[i] = c then 1 else 0)
      = l.count c + (if a = c then 1 else 0) := by
  rw [List.set_eq_take_cons_drop a h]
  conv_rhs => rw [← List.take_append_drop i l]
  rw [List.drop_eq_getElem_cons h]
  simp only [List.count_append, List.count_cons, beq_iff_eq]
  by_cases h1 : a = c <;> by_cases h2 : l[i] = c <;>
    simp [h1, h2, eq_comm] <;> omega

theorem length_swapCells (b : Board) (i j : Nat) :
    (swapCells b i j).length = b.length := by
  simp [swapCells]

theorem swapCells_perm (b : Board) (i j : Nat) (hi : i < b.length)
    (hj : j < b.length) : (swapCells b i j).Perm b := by
  rw [List.perm_iff_count]
  intro c
  unfold swapCells
  have hj1 : j < (List.set b i (List.getD b j ' ')).length := by simpa using hj
  have e1 := count_set_aux (List.set b i (List.getD b j ' ')) j
    (List.getD b i ' ') hj1 c
  have e2 := count_set_aux b i (List.getD b j ' ') hi c
  have hx : (List.set b i (List.getD b j ' '))[j] = List.getD b j ' ' := by
    by_cases hij : i = j
    · subst hij; simp [List.getD_eq_getElem b ' ' hi]
    · rw [List.getElem_set_ne hij]
      exact (List.getD_eq_getElem b ' ' hj).symm
  have hbi : b[i] = List.getD b i ' ' := (List.getD_eq_getElem b ' ' hi).symm
  rw [hx] at e1
  rw [hbi] at e2
  by_cases h1 : List.getD b i ' ' = c <;> by_cases h2 : List.getD b j ' ' = c <;>
    simp [h1, h2] at e1 e2 ⊢ <;> omega

theorem agent_mem_of_valid {b : Board} (h : validBoard b) : agentChar ∈ b :=
  List.count_pos_iff.mp (by rw [h.2]; exact Nat.one_pos)

theorem indexOf_agent_lt {b : Board} (h : validBoard b) :
    List.indexOf agentChar b < 16 := by
  have := List.indexOf_lt_length.mpr (agent_mem_of_valid h)
  have hl := h.1
  omega

theorem getElem_indexOf_agent {b : Board}
    (hlt : List.indexOf agentChar b < b.length) :
    b[List.indexOf agentChar b] = agentChar :=
  List.getElem_indexOf hlt

theorem two_le_count {l : List Char} {i j : Nat} {c : Char} (hij : i ≠ j)
    (hi : i < l.length) (hj : j < l.length) (ci : l[i] = c) (cj : l[j] = c) :
    2 ≤ l.count c := by
  wlog hlt : i < j generalizing i j
  · exact this hij.symm hj hi cj ci (by omega)
  have hmem : c ∈ l.take j := by
    have hlen : i < (l.take j).length := by
      simp only [List.length_take]
      omega
    have : (l.take j)[i] = l[i] := List.getElem_take l
    rw [← ci, ← this]
    exact List.getElem_mem hlen
  have hpos : 0 < (l.take j).count c := List.count_pos_iff.mpr hmem
  have hsplit : l = l.take j ++ l[j] :: l.drop (j + 1) := by
    conv_lhs => rw [← List.take_append_drop j l]
    rw [List.drop_eq_getElem_cons hj]
  conv_rhs => rw [hsplit]
  rw [List.count_append, List.count_cons]
  simp [cj]
  omega

/-! ## Move generator lemmas -/

theorem moveBoard_some_struct {b : Board} {mv : Move} {b2 : Board}
    (hv : validBoard b) (h : moveBoard b mv = some b2) :
    ∃ j, j < 16 ∧ j ≠ List.indexOf agentChar b ∧
      b2 = swapCells b (List.indexOf agentChar b) j := by
  have hidx := indexOf_agent_lt hv
  cases mv
  case LEFT =>
    by_cases hx : List.indexOf agentChar b % 4 = 0
    · simp [moveBoard, hx] at h
    · simp only [moveBoard, if_neg hx, Option.some.injEq] at h
      exact ⟨List.indexOf agentChar b / 4 * 4 + (List.indexOf agentChar b % 4 - 1),
        by omega, by omega, h.symm⟩
  case RIGHT =>
    by_cases hx : List.indexOf agentChar b % 4 = 3
    · simp [moveBoard, hx] at h
    · simp only [moveBoard, if_neg hx, Option.some.injEq] at h
      exact ⟨List.indexOf agentChar b / 4 * 4 + (List.indexOf agentChar b % 4 + 1),
        by omega, by omega, h.symm⟩
  case UP =>
    by_cases hy : List.indexOf agentChar b / 4 = 0
    · simp [moveBoard, hy] at h
    · simp only [moveBoard, if_neg hy, Option.some.injEq] at h
      exact ⟨(List.indexOf agentChar b / 4 - 1) * 4 + List.indexOf agentChar b % 4,
        by omega, by omega, h.symm⟩
  case DOWN =>
    by_cases hy : List.indexOf agentChar b / 4 = 3
    · simp [moveBoard, hy] at h
    · simp only [moveBoard, if_neg hy, Option.some.injEq] at h
      exact ⟨(List.indexOf agentChar b / 4 + 1) * 4 + List.indexOf agentChar b % 4,
        by omega, by omega, h.symm⟩

theorem moveBoard_perm {b : Board} {mv : Move} {b2 : Board}
    (hv : validBoard b) (h : moveBoard b mv = some b2) : List.Perm b2 b := by
  obtain ⟨j, hj16, hne, rfl⟩ := moveBoard_some_struct hv h
  have hidx := indexOf_agent_lt hv
  have hlen := hv.1
  exact swapCells_perm b _ _ (by omega) (by omega)

theorem validBoard_perm {b b2 : Board} (hp : List.Perm b2 b)
    (hv : validBoard b) : validBoard b2 :=
  ⟨by rw [hp.length_eq, hv.1], by rw [hp.count_eq, hv.2]⟩

theorem moveBoard_valid {b : Board} {mv : Move} {b2 : Board}
    (hv : validBoard b) (h : moveBoard b mv = some b2) : validBoard b2 :=
  validBoard_perm (moveBoard_perm hv h) hv

theorem moveBoard_ne {b : Board} {mv : Move} {b2 : Board}
    (hv : validBoard b) (h : moveBoard b mv = some b2) : b2 ≠ b := by
  obtain ⟨j, hj16, hne, rfl⟩ := moveBoard_some_struct hv h
  have hidx := indexOf_agent_lt hv
  have hlen := hv.1
  have hib : List.indexOf agentChar b < b.length := by omega
  have hjb : j < b.length := by omega
  intro hEq
  have hswp : List.indexOf agentChar b < (swapCells b (List.indexOf agentChar b) j).length := by
    rw [length_swapCells]; omega
  have h1 : (swapCells b (List.indexOf agentChar b) j)[List.indexOf agentChar b]
      = b[j] := by
    unfold swapCells
    rw [List.getElem_set_ne hne, List.getElem_set_self]
    exact List.getD_eq_getElem b ' ' hjb
  have h2 : (swapCells b (List.indexOf agentChar b) j)[List.indexOf agentChar b]
      = b[List.indexOf agentChar b] := List.getElem_of_eq hEq _
  have h3 : b[j] = agentChar := by
    rw [← h1, h2]; exact getElem_indexOf_agent hib
  have h4 := two_le_count (c := agentChar) (Ne.symm hne) hib hjb
    (getElem_indexOf_agent hib) h3
  have h5 := hv.2
  omega

/-! ## Chain, reachability, and successor-state lemmas -/

theorem chain_ne_nil (s : PuzzleState) : s.chain ≠ [] := by
  cases s <;> simp [PuzzleState.chain]

theorem chain_head (s : PuzzleState) : s.chain.head? = some s := by
  cases s <;> simp [PuzzleState.chain]

theorem chain_length (s : PuzzleState) : s.chain.length = s.depth + 1 := by
  induction s with
  | root b => simp [PuzzleState.chain, PuzzleState.depth]
  | succ p b ih => simp [PuzzleState.chain, PuzzleState.depth, ih]

theorem chainBoards_length (s : PuzzleState) :
    (chainBoards s).length = s.depth + 1 := by
  simp [chainBoards, chain_length]

theorem chainBoards_head (s : PuzzleState) :
    (chainBoards s).head? = some s.getState := by
  cases s <;> simp [chainBoards, PuzzleState.chain, PuzzleState.getState]

theorem chainBoards_getLast {start : Board} {s : PuzzleState}
    (h : ValidChain start s) : (chainBoards s).getLast? = some start := by
  induction s with
  | root b =>
    have hb : b = start := h
    simp [chainBoards, PuzzleState.chain, PuzzleState.getState, hb]
  | succ p b ih =>
    obtain ⟨hp, _⟩ := h
    have hrec := ih hp
    have hne : chainBoards p ≠ [] := by
      simp [chainBoards]
      exact chain_ne_nil p
    have : chainBoards (.succ p b) = b :: chainBoards p := by
      simp [chainBoards, PuzzleState.chain, PuzzleState.getState]
    rw [this, List.getLast?_cons, hrec]
    rfl

theorem reachableIn_snoc {n : Nat} {s m g : Board}
    (h : ReachableIn n s m) (hs : Step m g) : ReachableIn (n + 1) s g := by
  induction n generalizing s with
  | zero =>
    have he : s = m := h
    subst he
    exact ⟨g, hs, rfl⟩
  | succ k ih =>
    obtain ⟨b2, hst, hr⟩ := h
    exact ⟨b2, hst, ih hr⟩

theorem validChain_reach {start : Board} {s : PuzzleState}
    (h : ValidChain start s) : ReachableIn s.depth start s.getState := by
  induction s with
  | root b =>
    have hb : b = start := h
    simp [PuzzleState.depth, PuzzleState.getState, ReachableIn, hb]
  | succ p b ih =>
    obtain ⟨hp, hstep⟩ := h
    exact reachableIn_snoc (ih hp) hstep

theorem mns_some_elim {hashFn : Board → Nat} {parent : PuzzleState} {mv : Move}
    {t : PuzzleState} (h : make_next_state hashFn parent mv = some t) :
    ∃ b2, moveBoard parent.getState mv = some b2 ∧
      cycleHit hashFn parent (hashFn b2) = false ∧ t = .succ parent b2 := by
  unfold make_next_state at h
  cases hmb : moveBoard parent.getState mv with
  | none => rw [hmb] at h; exact Option.noConfusion h
  | some b2 =>
    rw [hmb] at h
    by_cases hc : cycleHit hashFn parent (hashFn b2) = true
    · simp [hc] at h
    · simp only [Bool.not_eq_true] at hc
      simp only [hc, Bool.false_eq_true, if_false, Option.some.injEq] at h
      exact ⟨b2, rfl, hc, h.symm⟩

theorem mns_eq_none_iff {hashFn : Board → Nat} {parent : PuzzleState} {mv : Move} :
    make_next_state hashFn parent mv = none ↔
      moveBoard parent.getState mv = none ∨
        ∃ b2, moveBoard parent.getState mv = some b2 ∧
          cycleHit hashFn parent (hashFn b2) = true := by
  unfold make_next_state
  cases hmb : moveBoard parent.getState mv with
  | none => simp
  | some b2 =>
    by_cases hc : cycleHit hashFn parent (hashFn b2) = true <;> simp [hc]

theorem cycleHit_iff {hashFn : Board → Nat} {parent : PuzzleState} {h : Nat} :
    cycleHit hashFn parent h = true ↔
      ∃ a ∈ parent.chain.drop 1, h = hashFn a.getState := by
  simp [cycleHit, List.any_eq_true, PuzzleState.getHash]

theorem mns_valid_chain {hashFn : Board → Nat} {start : Board}
    {parent t : PuzzleState} {mv : Move} (hp : ValidChain start parent)
    (h : make_next_state hashFn parent mv = some t) : ValidChain start t := by
  obtain ⟨b2, hmb, _, rfl⟩ := mns_some_elim h
  exact ⟨hp, mv, hmb⟩

theorem mns_depth {hashFn : Board → Nat} {parent t : PuzzleState} {mv : Move}
    (h : make_next_state hashFn parent mv = some t) : t.depth = parent.depth + 1 := by
  obtain ⟨b2, _, _, rfl⟩ := mns_some_elim h
  rfl

/-! ## Inner-loop lemmas for the searchers -/

theorem stepMoves_cons_of_none {hashFn : Board → Nat} {gh : Nat}
    {parent : PuzzleState} {mv : Move} {ms : List Move}
    {queue : List PuzzleState}
    (hm : make_next_state hashFn parent mv = none) :
    stepMoves hashFn gh parent (mv :: ms) queue =
      stepMoves hashFn gh parent ms queue := by
  show (match make_next_state hashFn parent mv with
      | none => stepMoves hashFn gh parent ms queue
      | some next =>
        if next.getHash hashFn = gh then (some next, queue)
        else stepMoves hashFn gh parent ms (next :: queue)) =
    stepMoves hashFn gh parent ms queue
  rw [hm]

theorem stepMoves_cons_of_some {hashFn : Board → Nat} {gh : Nat}
    {parent : PuzzleState} {mv : Move} {ms : List Move}
    {queue : List PuzzleState} {nx : PuzzleState}
    (hm : make_next_state hashFn parent mv = some nx) :
    stepMoves hashFn gh parent (mv :: ms) queue =
      if nx.getHash hashFn = gh then (some nx, queue)
      else stepMoves hashFn gh parent ms (nx :: queue) := by
  show (match make_next_state hashFn parent mv with
      | none => stepMoves hashFn gh parent ms queue
      | some next =>
        if next.getHash hashFn = gh then (some next, queue)
        else stepMoves hashFn gh parent ms (next :: queue)) =
    if nx.getHash hashFn = gh then (some nx, queue)
    else stepMoves hashFn gh parent ms (nx :: queue)
  rw [hm]

theorem stepMoves_none {hashFn : Board → Nat} {gh : Nat} {parent : PuzzleState} :
    ∀ {moves : List Move} {queue res : List PuzzleState},
    stepMoves hashFn gh parent moves queue = (none, res) →
    ∃ new, res = new ++ queue ∧ new.length ≤ moves.length ∧
      (∀ x ∈ new, ∃ mv ∈ moves, make_next_state hashFn parent mv = some x ∧
        x.getHash hashFn ≠ gh) ∧
      (∀ mv ∈ moves, ∀ c, make_next_state hashFn parent mv = some c →
        c ∈ new) := by
  intro moves
  induction moves with
  | nil =>
    intro queue res h
    simp only [stepMoves, Prod.mk.injEq] at h
    exact ⟨[], by simp [h.2.symm], by simp, by simp, by simp⟩
  | cons mv ms ih =>
    intro queue res h
    cases hm : make_next_state hashFn parent mv with
    | none =>
      rw [stepMoves_cons_of_none hm] at h
      obtain ⟨new, hres, hlen, hmem, hcov⟩ := ih h
      refine ⟨new, hres, by simpa using Nat.le_succ_of_le hlen, ?_, ?_⟩
      · intro x hx
        obtain ⟨mv2, hmv2, hmk, hh⟩ := hmem x hx
        exact ⟨mv2, List.mem_cons_of_mem _ hmv2, hmk, hh⟩
      · intro mv2 hmv2 c hc
        rcases List.mem_cons.mp hmv2 with h1 | h1
        · subst h1; rw [hm] at hc; exact Option.noConfusion hc
        · exact hcov mv2 h1 c hc
    | some nx =>
      rw [stepMoves_cons_of_some hm] at h
      by_cases hg : nx.getHash hashFn = gh
      · simp [hg] at h
      · rw [if_neg hg] at h
        obtain ⟨new, hres, hlen, hmem, hcov⟩ := ih h
        refine ⟨new ++ [nx], by rw [hres]; simp, by simp; omega, ?_, ?_⟩
        · intro x hx
          rcases List.mem_append.mp hx with h1 | h1
          · obtain ⟨mv2, hmv2, hmk, hh⟩ := hmem x h1
            exact ⟨mv2, List.mem_cons_of_mem _ hmv2, hmk, hh⟩
          · rw [List.mem_singleton] at h1
            subst h1
            exact ⟨mv, List.mem_cons_self _ _, hm, hg⟩
        · intro mv2 hmv2 c hc
          rcases List.mem_cons.mp hmv2 with h1 | h1
          · subst h1
            rw [hm] at hc
            have hcx : nx = c := Option.some.inj hc
            subst hcx
            exact List.mem_append.mpr (Or.inr (List.mem_singleton.mpr rfl))
          · exact List.mem_append.mpr (Or.inl (hcov mv2 h1 c hc))

theorem stepMoves_some {hashFn : Board → Nat} {gh : Nat} {parent : PuzzleState} :
    ∀ {moves : List Move} {queue res : List PuzzleState} {c : PuzzleState},
    stepMoves hashFn gh parent moves queue = (some c, res) →
    ∃ mv ∈ moves, make_next_state hashFn parent mv = some c ∧
      c.getHash hashFn = gh := by
  intro moves
  induction moves with
  | nil =>
    intro queue res c h
    simp [stepMoves] at h
  | cons mv ms ih =>
    intro queue res c h
    cases hm : make_next_state hashFn parent mv with
    | none =>
      rw [stepMoves_cons_of_none hm] at h
      obtain ⟨mv2, hmv2, hmk, hh⟩ := ih h
      exact ⟨mv2, List.mem_cons_of_mem _ hmv2, hmk, hh⟩
    | some nx =>
      rw [stepMoves_cons_of_some hm] at h
      by_cases hg : nx.getHash hashFn = gh
      · rw [if_pos hg] at h
        have hnx : nx = c := by
          have := congrArg Prod.fst h
          simpa using this
        subst hnx
        exact ⟨mv, List.mem_cons_self _ _, hm, hg⟩
      · rw [if_neg hg] at h
        obtain ⟨mv2, hmv2, hmk, hh⟩ := ih h
        exact ⟨mv2, List.mem_cons_of_mem _ hmv2, hmk, hh⟩

/-! ## Breadth-first soundness -/

theorem bfsLoop_succ {hashFn : Board → Nat} {gh : Nat} {fuel : Nat}
    {queue : List PuzzleState} :
    bfsLoop hashFn gh (fuel + 1) queue =
      match queue.getLast? with
      | none => .exhausted
      | some parent =>
        match stepMoves hashFn gh parent allMoves queue.dropLast with
        | (some next, _) => .found next
        | (none, queue2) => bfsLoop hashFn gh fuel queue2 := rfl

theorem bfsLoop_sound {hashFn : Board → Nat} {gh : Nat} {start : Board} :
    ∀ {fuel : Nat} {queue : List PuzzleState} {s : PuzzleState},
      (∀ q ∈ queue, ValidChain start q) →
      bfsLoop hashFn gh fuel queue = .found s →
      ValidChain start s ∧ s.getHash hashFn = gh := by
  intro fuel
  induction fuel with
  | zero => intro queue s hq h; exact absurd h (by simp [bfsLoop])
  | succ n ih =>
    intro queue s hq h
    rw [bfsLoop_succ] at h
    cases hL : queue.getLast? with
    | none => rw [hL] at h; exact absurd h (by simp)
    | some parent =>
      rw [hL] at h
      have h2 : (match stepMoves hashFn gh parent allMoves queue.dropLast with
          | (some next, _) => SearchResult.found next
          | (none, queue2) => bfsLoop hashFn gh n queue2) =
          SearchResult.found s := h
      have hpar : parent ∈ queue := List.mem_of_getLast?_eq_some hL
      have hvp : ValidChain start parent := hq parent hpar
      obtain ⟨ys, hys⟩ := List.getLast?_eq_some_iff.mp hL
      have hdl : queue.dropLast = ys := by rw [hys]; simp
      cases hsm : stepMoves hashFn gh parent allMoves queue.dropLast with
      | mk o q2 =>
        cases o with
        | some c =>
          rw [hsm] at h2
          have hcs : c = s := by
            have : SearchResult.found c = SearchResult.found s := h2
            exact SearchResult.found.inj this
          subst hcs
          obtain ⟨mv, -, hmk, hh⟩ := stepMoves_some hsm
          exact ⟨mns_valid_chain hvp hmk, hh⟩
        | none =>
          rw [hsm] at h2
          obtain ⟨new, hres, -, hmem, -⟩ := stepMoves_none hsm
          refine ih ?_ h2
          intro q hq2
          rw [hres] at hq2
          rcases List.mem_append.mp hq2 with h1 | h1
          · obtain ⟨mv, -, hmk, -⟩ := hmem q h1
            exact mns_valid_chain hvp hmk
          · rw [hdl] at h1
            exact hq q (by rw [hys]; exact List.mem_append.mpr (Or.inl h1))

theorem breadthFirst_sound {hashFn : Board → Nat} {start goal : Board}
    {fuel : Nat} {s : PuzzleState}
    (h : breadthFirst hashFn start goal fuel = .found s) :
    ValidChain start s ∧ s.getHash hashFn = hashFn goal := by
  unfold breadthFirst at h
  by_cases h0 : (PuzzleState.root start).getHash hashFn = hashFn goal
  · rw [if_pos h0] at h
    have hs : PuzzleState.root start = s := SearchResult.found.inj h
    subst hs
    exact ⟨rfl, h0⟩
  · rw [if_neg h0] at h
    refine bfsLoop_sound ?_ h
    intro q hq
    rw [List.mem_singleton] at hq
    subst hq
    exact rfl

/-! ## Priority-queue (A*) lemmas -/

theorem popMin_cons {x : PuzzleState × Nat} {xs : List (PuzzleState × Nat)} :
    popMin (x :: xs) =
      match popMin xs with
      | none => some (x, [])
      | some (m, rest) =>
        if x.2 ≤ m.2 then some (x, xs) else some (m, x :: rest) := rfl

theorem popMin_eq_none {l : List (PuzzleState × Nat)} :
    popMin l = none ↔ l = [] := by
  cases l with
  | nil => simp [popMin]
  | cons x xs =>
    rw [popMin_cons]
    cases h : popMin xs with
    | none => simp
    | some m =>
      cases m with
      | mk m rest => by_cases hc : x.2 ≤ m.2 <;> simp [hc]

theorem popMin_perm : ∀ {l : List (PuzzleState × Nat)} {x : PuzzleState × Nat}
    {rest : List (PuzzleState × Nat)},
    popMin l = some (x, rest) → l.Perm (x :: rest) := by
  intro l
  induction l with
  | nil => intro x rest h; simp [popMin] at h
  | cons y ys ih =>
    intro x rest h
    rw [popMin_cons] at h
    cases hp : popMin ys with
    | none =>
      rw [hp] at h
      have hys : ys = [] := popMin_eq_none.mp hp
      subst hys
      have hinj := Option.some.inj h
      rw [Prod.mk.injEq] at hinj
      obtain ⟨rfl, rfl⟩ := hinj
      exact List.Perm.refl _
    | some m =>
      cases m with
      | mk m rest2 =>
        rw [hp] at h
        have h3 : (if y.2 ≤ m.2 then some (y, ys) else some (m, y :: rest2))
            = some (x, rest) := h
        by_cases hc : y.2 ≤ m.2
        · rw [if_pos hc] at h3
          have hinj := Option.some.inj h3
          rw [Prod.mk.injEq] at hinj
          obtain ⟨rfl, rfl⟩ := hinj
          exact List.Perm.refl _
        · rw [if_neg hc] at h3
          have hinj := Option.some.inj h3
          rw [Prod.mk.injEq] at hinj
          obtain ⟨rfl, rfl⟩ := hinj
          have h2 := ih hp
          exact (h2.cons y).trans (List.Perm.swap _ _ _)

theorem stepMovesA_cons_of_none {hashFn : Board → Nat} {gh : Nat} {goal : Board}
    {parent : PuzzleState} {mv : Move} {ms : List Move}
    {frontier : List (PuzzleState × Nat)}
    (hm : make_next_state hashFn parent mv = none) :
    stepMovesA hashFn gh goal parent (mv :: ms) frontier =
      stepMovesA hashFn gh goal parent ms frontier := by
  show (match make_next_state hashFn parent mv with
      | none => stepMovesA hashFn gh goal parent ms frontier
      | some next =>
        if next.getHash hashFn = gh then (some next, frontier)
        else stepMovesA hashFn gh goal parent ms
          ((next, calc_score next goal) :: frontier)) =
    stepMovesA hashFn gh goal parent ms frontier
  rw [hm]

theorem stepMovesA_cons_of_some {hashFn : Board → Nat} {gh : Nat} {goal : Board}
    {parent : PuzzleState} {mv : Move} {ms : List Move}
    {frontier : List (PuzzleState × Nat)} {nx : PuzzleState}
    (hm : make_next_state hashFn parent mv = some nx) :
    stepMovesA hashFn gh goal parent (mv :: ms) frontier =
      if nx.getHash hashFn = gh then (some nx, frontier)
      else stepMovesA hashFn gh goal parent ms
        ((nx, calc_score nx goal) :: frontier) := by
  show (match make_next_state hashFn parent mv with
      | none => stepMovesA hashFn gh goal parent ms frontier
      | some next =>
        if next.getHash hashFn = gh then (some next, frontier)
        else stepMovesA hashFn gh goal parent ms
          ((next, calc_score next goal) :: frontier)) =
    if nx.getHash hashFn = gh then (some nx, frontier)
    else stepMovesA hashFn gh goal parent ms
      ((nx, calc_score nx goal) :: frontier)
  rw [hm]

theorem stepMovesA_none {hashFn : Board → Nat} {gh : Nat} {goal : Board}
    {parent : PuzzleState} :
    ∀ {moves : List Move} {frontier res : List (PuzzleState × Nat)},
    stepMovesA hashFn gh goal parent moves frontier = (none, res) →
    ∃ new, res = new ++ frontier ∧ new.length ≤ moves.length ∧
      (∀ x ∈ new, ∃ mv ∈ moves,
        make_next_state hashFn parent mv = some x.1 ∧
        x.1.getHash hashFn ≠ gh) := by
  intro moves
  induction moves with
  | nil =>
    intro frontier res h
    simp only [stepMovesA, Prod.mk.injEq] at h
    exact ⟨[], by simp [h.2.symm], by simp, by simp⟩
  | cons mv ms ih =>
    intro frontier res h
    cases hm : make_next_state hashFn parent mv with
    | none =>
      rw [stepMovesA_cons_of_none hm] at h
      obtain ⟨new, hres, hlen, hmem⟩ := ih h
      refine ⟨new, hres, by simpa using Nat.le_succ_of_le hlen, ?_⟩
      intro x hx
      obtain ⟨mv2, hmv2, hmk, hh⟩ := hmem x hx
      exact ⟨mv2, List.mem_cons_of_mem _ hmv2, hmk, hh⟩
    | some nx =>
      rw [stepMovesA_cons_of_some hm] at h
      by_cases hg : nx.getHash hashFn = gh
      · simp [hg] at h
      · rw [if_neg hg] at h
        obtain ⟨new, hres, hlen, hmem⟩ := ih h
        refine ⟨new ++ [(nx, calc_score nx goal)], by rw [hres]; simp,
          by simp; omega, ?_⟩
        intro x hx
        rcases List.mem_append.mp hx with h1 | h1
        · obtain ⟨mv2, hmv2, hmk, hh⟩ := hmem x h1
          exact ⟨mv2, List.mem_cons_of_mem _ hmv2, hmk, hh⟩
        · rw [List.mem_singleton] at h1
          subst h1
          exact ⟨mv, List.mem_cons_self _ _, hm, hg⟩

theorem stepMovesA_some {hashFn : Board → Nat} {gh : Nat} {goal : Board}
    {parent : PuzzleState} :
    ∀ {moves : List Move} {frontier res : List (PuzzleState × Nat)}
      {c : PuzzleState},
    stepMovesA hashFn gh goal parent moves frontier = (some c, res) →
    ∃ mv ∈ moves, make_next_state hashFn parent mv = some c ∧
      c.getHash hashFn = gh := by
  intro moves
  induction moves with
  | nil =>
    intro frontier res c h
    simp [stepMovesA] at h
  | cons mv ms ih =>
    intro frontier res c h
    cases hm : make_next_state hashFn parent mv with
    | none =>
      rw [stepMovesA_cons_of_none hm] at h
      obtain ⟨mv2, hmv2, hmk, hh⟩ := ih h
      exact ⟨mv2, List.mem_cons_of_mem _ hmv2, hmk, hh⟩
    | some nx =>
      rw [stepMovesA_cons_of_some hm] at h
      by_cases hg : nx.getHash hashFn = gh
      · rw [if_pos hg] at h
        have hnx : nx = c := by
          have := congrArg Prod.fst h
          simpa using this
        subst hnx
        exact ⟨mv, List.mem_cons_self _ _, hm, hg⟩
      · rw [if_neg hg] at h
        obtain ⟨mv2, hmv2, hmk, hh⟩ := ih h
        exact ⟨mv2, List.mem_cons_of_mem _ hmv2, hmk, hh⟩

theorem aStarLoop_succ {hashFn : Board → Nat} {gh : Nat} {goal : Board}
    {fuel : Nat} {frontier : List (PuzzleState × Nat)} :
    aStarLoop hashFn gh goal (fuel + 1) frontier =
      match popMin frontier with
      | none => .exhausted
      | some (best, rest) =>
        match stepMovesA hashFn gh goal best.1 allMoves rest with
        | (some next, _) => .found next
        | (none, frontier2) => aStarLoop hashFn gh goal fuel frontier2 := rfl

theorem aStarLoop_sound {hashFn : Board → Nat} {gh : Nat} {goal : Board}
    {start : Board} :
    ∀ {fuel : Nat} {frontier : List (PuzzleState × Nat)} {s : PuzzleState},
      (∀ q ∈ frontier, ValidChain start q.1) →
      aStarLoop hashFn gh goal fuel frontier = .found s →
      ValidChain start s ∧ s.getHash hashFn = gh := by
  intro fuel
  induction fuel with
  | zero => intro frontier s hq h; exact absurd h (by simp [aStarLoop])
  | succ n ih =>
    intro frontier s hq h
    rw [aStarLoop_succ] at h
    cases hP : popMin frontier with
    | none => rw [hP] at h; exact absurd h (by simp)
    | some br =>
      cases br with
      | mk best rest =>
        rw [hP] at h
        have h2 : (match stepMovesA hashFn gh goal best.1 allMoves rest with
            | (some next, _) => SearchResult.found next
            | (none, frontier2) => aStarLoop hashFn gh goal n frontier2) =
            SearchResult.found s := h
        have hperm := popMin_perm hP
        have hbest : best ∈ frontier := hperm.mem_iff.mpr (List.mem_cons_self _ _)
        have hvp : ValidChain start best.1 := hq best hbest
        have hrest : ∀ q ∈ rest, q ∈ frontier := by
          intro q hq2
          exact hperm.mem_iff.mpr (List.mem_cons_of_mem _ hq2)
        cases hsm : stepMovesA hashFn gh goal best.1 allMoves rest with
        | mk o f2 =>
          cases o with
          | some c =>
            rw [hsm] at h2
            have hcs : c = s := by
              have : SearchResult.found c = SearchResult.found s := h2
              exact SearchResult.found.inj this
            subst hcs
            obtain ⟨mv, -, hmk, hh⟩ := stepMovesA_some hsm
            exact ⟨mns_valid_chain hvp hmk, hh⟩
          | none =>
            rw [hsm] at h2
            obtain ⟨new, hres, -, hmem⟩ := stepMovesA_none hsm
            refine ih ?_ h2
            intro q hq2
            rw [hres] at hq2
            rcases List.mem_append.mp hq2 with h1 | h1
            · obtain ⟨mv, -, hmk, -⟩ := hmem q h1
              exact mns_valid_chain hvp hmk
            · exact hq q (hrest q h1)

theorem aStar_sound {hashFn : Board → Nat} {start goal : Board}
    {fuel : Nat} {s : PuzzleState}
    (h : aStar hashFn start goal fuel = .found s) :
    ValidChain start s ∧ s.getHash hashFn = hashFn goal := by
  unfold aStar at h
  by_cases h0 : (PuzzleState.root start).getHash hashFn = hashFn goal
  · rw [if_pos h0] at h
    have hs : PuzzleState.root start = s := SearchResult.found.inj h
    subst hs
    exact ⟨rfl, h0⟩
  · rw [if_neg h0] at h
    refine aStarLoop_sound ?_ h
    intro q hq
    rw [List.mem_singleton] at hq
    subst hq
    exact rfl

/-! ## Injectivity of the concrete hash model -/

theorem hashFold_mono : ∀ (l : List Char) (a : Nat),
    a ≤ List.foldl (fun h c => h * 1114112 + c.toNat) a l := by
  intro l
  induction l with
  | nil => intro a; exact Nat.le_refl a
  | cons c cs ih =>
    intro a
    refine Nat.le_trans ?_ (ih (a * 1114112 + c.toNat))
    have h1 : a * 1 ≤ a * 1114112 := Nat.mul_le_mul_left a (by omega)
    omega

theorem hashInj_append (l : List Char) (c : Char) :
    hashInj (l ++ [c]) = hashInj l * 1114112 + c.toNat := by
  simp [hashInj, List.foldl_append]

theorem hashInj_pos (l : List Char) : 1 ≤ hashInj l := hashFold_mono l 1

theorem char_toNat_lt_base (c : Char) : c.toNat < 1114112 := by
  rcases c.valid with h | h <;> simp only [Char.toNat] <;> omega

theorem hashInj_injective : Function.Injective hashInj := by
  intro l1
  induction l1 using List.reverseRecOn with
  | nil =>
    intro l2 h
    rcases List.eq_nil_or_concat l2 with rfl | ⟨l, c, rfl⟩
    · rfl
    · exfalso
      rw [List.concat_eq_append, hashInj_append] at h
      have h1 := hashInj_pos l
      have h2 : hashInj ([] : List Char) = 1 := rfl
      have h3 : 1 * 1114112 ≤ hashInj l * 1114112 :=
        Nat.mul_le_mul_right _ h1
      omega
  | append_singleton l c ih =>
    intro l2 h
    rcases List.eq_nil_or_concat l2 with rfl | ⟨l2a, c2, rfl⟩
    · exfalso
      rw [hashInj_append] at h
      have h1 := hashInj_pos l
      have h2 : hashInj ([] : List Char) = 1 := rfl
      have h3 : 1 * 1114112 ≤ hashInj l * 1114112 :=
        Nat.mul_le_mul_right _ h1
      omega
    · rw [List.concat_eq_append] at h ⊢
      rw [hashInj_append, hashInj_append] at h
      have hc := char_toNat_lt_base c
      have hc2 := char_toNat_lt_base c2
      have hdigit : c.toNat = c2.toNat := by omega
      have hrest : hashInj l = hashInj l2a := by omega
      have hchar : c = c2 :=
        Char.eq_of_val_eq (UInt32.toNat.inj hdigit)
      rw [ih hrest, hchar]

/-- Building a successor when the cycle walk finds no hash match. -/
theorem mns_of_not_hit {hashFn : Board → Nat} {parent : PuzzleState} {mv : Move}
    {b2 : Board} (hmb : moveBoard parent.getState mv = some b2)
    (hc : cycleHit hashFn parent (hashFn b2) = false) :
    make_next_state hashFn parent mv = some (.succ parent b2) := by
  unfold make_next_state
  rw [hmb]
  show (if cycleHit hashFn parent (hashFn b2) = true then none
    else some (parent.succ b2)) = some (parent.succ b2)
  rw [hc]
  simp

/-- Concrete boards for evaluation: the agent in the top-left corner, and
the same board after one move to the right. -/
def boardA : Board := "*a              ".toList

def boardB : Board := "a*              ".toList

/-! ## Claim C2: reconstructed paths run from the start board to the goal -/

/-- C2: for every start and goal board on which a searcher succeeds (under
the collision-free model of the implementation-defined string hash), the
solution sequence reconstructed by `print_search` — boards from the
returned state back along predecessor links, then reversed — begins with
the start board and ends with a board cell-for-cell equal to the goal. -/
theorem C2_reconstruct_endpoints {hashFn : Board → Nat} {start goal : Board}
    {fuel : Nat} {s : PuzzleState} (hinj : Function.Injective hashFn)
    (h : breadthFirst hashFn start goal fuel = .found s ∨
         aStar hashFn start goal fuel = .found s) :
    (reconstruct s).head? = some start ∧
      (reconstruct s).getLast? = some goal := by
  have hs : ValidChain start s ∧ s.getHash hashFn = hashFn goal := by
    rcases h with h | h
    · exact breadthFirst_sound h
    · exact aStar_sound h
  have hb : s.getState = goal := hinj hs.2
  constructor
  · rw [reconstruct, List.head?_reverse]
    exact chainBoards_getLast hs.1
  · rw [reconstruct, List.getLast?_reverse, chainBoards_head, hb]

/-- Witness for C2 at a concrete one-move instance, for both searchers. -/
theorem C2_witness :
    (reconstruct (PuzzleState.succ (.root boardA) boardB)).head? = some boardA ∧
      (reconstruct (PuzzleState.succ (.root boardA) boardB)).getLast? =
        some boardB :=
  @C2_reconstruct_endpoints hashInj boardA boardB 5
    (PuzzleState.succ (.root boardA) boardB) hashInj_injective
    (Or.inl (by decide))

/-! ## Claim C3: the goal-match decision is made on hashes, not boards -/

/-- C3 counterexample: the claim says the decision that a state's board
matches the goal board is made by comparing full board contents, never
hashes.  If that held, a searcher could never return a state whose board
differs from the goal, no matter the hash function.  Under the (legal,
everywhere-colliding) hash `hashConst`, `breadthFirst` returns the start
state for a goal board that differs from the start board: the goal test at
`main.cc` lines 191 and 203 (`getHash() == goalHash`) compares hashes. -/
theorem C3_counterexample :
    breadthFirst hashConst boardA boardB 1 = .found (.root boardA) ∧
      (PuzzleState.root boardA).getState ≠ boardB := by
  exact ⟨by decide, by decide⟩

/-- C3 amended: every equality decision that affects the search result —
the cycle pre-filter and also the goal test — compares hashes.  Whenever a
searcher returns a state, that state's board has the same hash as the goal
board; cell-for-cell equality with the goal follows only when the hash
function is injective. -/
theorem C3_goal_test_by_hash {hashFn : Board → Nat} {start goal : Board}
    {fuel : Nat} {s : PuzzleState}
    (h : breadthFirst hashFn start goal fuel = .found s ∨
         aStar hashFn start goal fuel = .found s) :
    hashFn s.getState = hashFn goal ∧
      (Function.Injective hashFn → s.getState = goal) := by
  have hh : s.getHash hashFn = hashFn goal := by
    rcases h with h | h
    · exact (breadthFirst_sound h).2
    · exact (aStar_sound h).2
  exact ⟨hh, fun hinj => hinj hh⟩

/-- Witness for the amended C3 at a concrete instance. -/
theorem C3_goal_test_by_hash_witness :
    hashConst (PuzzleState.root boardA).getState = hashConst boardB ∧
      (Function.Injective hashConst →
        (PuzzleState.root boardA).getState = boardB) :=
  @C3_goal_test_by_hash hashConst boardA boardB 1 (PuzzleState.root boardA)
    (Or.inl (by decide))

/-! ## Claim C4: where the cycle-rejection walk starts -/

/-- The cycle walk as the claim words it: starting at the expanded state's
predecessor's predecessor, i.e. skipping the expanded state's immediate
parent (`drop 2` of the chain instead of the code's `drop 1`). -/
def cycleHitSpec (hashFn : Board → Nat) (parent : PuzzleState) (h : Nat) : Bool :=
  (parent.chain.drop 2).any (fun a => h == a.getHash hashFn)

/-- The move generator as described by the claim, differing from
`make_next_state` only in where the ancestor walk starts. -/
def make_next_state_spec (hashFn : Board → Nat) (parent : PuzzleState)
    (mv : Move) : Option PuzzleState :=
  match moveBoard parent.getState mv with
  | none => none
  | some state =>
    if cycleHitSpec hashFn parent (hashFn state) then none
    else some (.succ parent state)

/-- C4 counterexample: expanding the program-generated state reached by
one RIGHT move from `boardA`, the LEFT move (which recreates the immediate
predecessor's board `boardA`) is rejected by the code, although the walk
described by the claim — starting at the expanded state's predecessor's
predecessor — visits no state at all (the chain has length 2), so the
claim predicts the move is accepted. -/
theorem C4_counterexample :
    make_next_state hashInj (.root boardA) Move.RIGHT =
        some (.succ (.root boardA) boardB) ∧
      make_next_state hashInj (PuzzleState.succ (.root boardA) boardB)
        Move.LEFT = none ∧
      make_next_state_spec hashInj (PuzzleState.succ (.root boardA) boardB)
        Move.LEFT =
        some (.succ (.succ (.root boardA) boardB) boardA) := by
  exact ⟨by decide, by decide, by decide⟩

/-- C4 amended: the cycle walk starts at the expanded state's immediate
predecessor (`parent->getParent()` in `make_next_state`, where `parent` is
the expanded state) — equivalently, at the generated successor's
predecessor's predecessor, skipping only the successor's immediate parent,
the expanded state itself — and the move is rejected exactly when the new
board's hash equals the cached hash of some state on that walk. -/
theorem C4_cycle_walk {hashFn : Board → Nat} (parent : PuzzleState) (mv : Move) :
    (moveBoard parent.getState mv = none →
      make_next_state hashFn parent mv = none) ∧
    ∀ b2, moveBoard parent.getState mv = some b2 →
      (make_next_state hashFn parent mv = none ↔
        ∃ a ∈ parent.chain.drop 1, hashFn b2 = hashFn a.getState) ∧
      (make_next_state hashFn parent mv = some (.succ parent b2) ↔
        ∀ a ∈ parent.chain.drop 1, hashFn b2 ≠ hashFn a.getState) := by
  constructor
  · intro h
    exact mns_eq_none_iff.mpr (Or.inl h)
  · intro b2 hmb
    constructor
    · constructor
      · intro h
        rcases mns_eq_none_iff.mp h with h1 | ⟨b3, hb3, hc⟩
        · rw [hmb] at h1; exact Option.noConfusion h1
        · rw [hmb] at hb3
          have hb23 : b2 = b3 := Option.some.inj hb3
          subst hb23
          exact cycleHit_iff.mp hc
      · intro h
        exact mns_eq_none_iff.mpr (Or.inr ⟨b2, hmb, cycleHit_iff.mpr h⟩)
    · constructor
      · intro h
        intro a ha hEq
        obtain ⟨b3, hb3, hcf, -⟩ := mns_some_elim h
        rw [hmb] at hb3
        have hb23 : b2 = b3 := Option.some.inj hb3
        subst hb23
        have : cycleHit hashFn parent (hashFn b2) = true :=
          cycleHit_iff.mpr ⟨a, ha, hEq⟩
        rw [this] at hcf
        exact Bool.noConfusion hcf
      · intro h
        apply mns_of_not_hit hmb
        rw [Bool.eq_false_iff]
        intro hc
        obtain ⟨a, ha, hEq⟩ := cycleHit_iff.mp hc
        exact h a ha hEq

/-- Witness for the amended C4: at the concrete undo instance the walk
visits the predecessor `boardA` and the move is rejected. -/
theorem C4_cycle_walk_witness :
    make_next_state hashInj (PuzzleState.succ (.root boardA) boardB)
      Move.LEFT = none :=
  ((@C4_cycle_walk hashInj
      (PuzzleState.succ (.root boardA) boardB) Move.LEFT).2
    boardA (by decide)).1.mpr ⟨.root boardA, by decide, by decide⟩

/-! ## Claim C5: off-grid moves, cycle rejection, and successful swaps -/

/-- The target cell of a move in the specification's row/column terms:
signed row/column arithmetic on the agent's flat index, `none` when the
target falls outside the 4x4 grid. -/
def targetIdx (i : Nat) (mv : Move) : Option Nat :=
  let row : Int := (i : Int) / 4
  let col : Int := (i : Int) % 4
  let rc : Int × Int :=
    match mv with
    | .LEFT => (row, col - 1)
    | .RIGHT => (row, col + 1)
    | .UP => (row - 1, col)
    | .DOWN => (row + 1, col)
  if 0 ≤ rc.1 ∧ rc.1 ≤ 3 ∧ 0 ≤ rc.2 ∧ rc.2 ≤ 3 then
    some (rc.1 * 4 + rc.2).toNat
  else none

/-- C5: for a state whose board is a valid 16-cell one-agent board and any
direction: if the agent's target cell lies outside the 4x4 grid, the move
generator returns `none` (the null pointer, a normal silently-filtered
outcome — modelled by `Option`, never an error); otherwise the board step
is exactly the agent/target swap, and when no ancestor hash matches (the
move is not cycle-rejected) the generator returns the successor state
whose board is that swap and whose predecessor is the input state. -/
theorem C5_move_outcomes {hashFn : Board → Nat} (s : PuzzleState) (mv : Move)
    (hv : validBoard s.getState) :
    (targetIdx (List.indexOf agentChar s.getState) mv = none →
      make_next_state hashFn s mv = none) ∧
    ∀ j, targetIdx (List.indexOf agentChar s.getState) mv = some j →
      moveBoard s.getState mv =
        some (swapCells s.getState (List.indexOf agentChar s.getState) j) ∧
      ((∀ a ∈ s.chain.drop 1,
          hashFn (swapCells s.getState (List.indexOf agentChar s.getState) j) ≠
            hashFn a.getState) →
        make_next_state hashFn s mv =
          some (.succ s
            (swapCells s.getState (List.indexOf agentChar s.getState) j))) := by
  have hL := indexOf_agent_lt hv
  constructor
  · intro ht
    apply mns_eq_none_iff.mpr (Or.inl ?_)
    cases mv
    case LEFT =>
      simp only [targetIdx] at ht
      split at ht
      · exact absurd ht (by simp)
      · have h0 : List.indexOf agentChar s.getState % 4 = 0 := by omega
        simp [moveBoard, h0]
    case RIGHT =>
      simp only [targetIdx] at ht
      split at ht
      · exact absurd ht (by simp)
      · have h0 : List.indexOf agentChar s.getState % 4 = 3 := by omega
        simp [moveBoard, h0]
    case UP =>
      simp only [targetIdx] at ht
      split at ht
      · exact absurd ht (by simp)
      · have h0 : List.indexOf agentChar s.getState / 4 = 0 := by omega
        simp [moveBoard, h0]
    case DOWN =>
      simp only [targetIdx] at ht
      split at ht
      · exact absurd ht (by simp)
      · have h0 : List.indexOf agentChar s.getState / 4 = 3 := by omega
        simp [moveBoard, h0]
  · intro j hj
    have hmb : moveBoard s.getState mv =
        some (swapCells s.getState (List.indexOf agentChar s.getState) j) := by
      cases mv
      case LEFT =>
        simp only [targetIdx] at hj
        split at hj
        · have hjv := Option.some.inj hj
          have h0 : List.indexOf agentChar s.getState % 4 ≠ 0 := by omega
          have hjn : j = List.indexOf agentChar s.getState / 4 * 4 +
              (List.indexOf agentChar s.getState % 4 - 1) := by omega
          rw [hjn]
          simp [moveBoard, h0]
        · exact absurd hj (by simp)
      case RIGHT =>
        simp only [targetIdx] at hj
        split at hj
        · have hjv := Option.some.inj hj
          have h0 : List.indexOf agentChar s.getState % 4 ≠ 3 := by omega
          have hjn : j = List.indexOf agentChar s.getState / 4 * 4 +
              (List.indexOf agentChar s.getState % 4 + 1) := by omega
          rw [hjn]
          simp [moveBoard, h0]
        · exact absurd hj (by simp)
      case UP =>
        simp only [targetIdx] at hj
        split at hj
        · have hjv := Option.some.inj hj
          have h0 : List.indexOf agentChar s.getState / 4 ≠ 0 := by omega
          have hjn : j = (List.indexOf agentChar s.getState / 4 - 1) * 4 +
              List.indexOf agentChar s.getState % 4 := by omega
          rw [hjn]
          simp [moveBoard, h0]
        · exact absurd hj (by simp)
      case DOWN =>
        simp only [targetIdx] at hj
        split at hj
        · have hjv := Option.some.inj hj
          have h0 : List.indexOf agentChar s.getState / 4 ≠ 3 := by omega
          have hjn : j = (List.indexOf agentChar s.getState / 4 + 1) * 4 +
              List.indexOf agentChar s.getState % 4 := by omega
          rw [hjn]
          simp [moveBoard, h0]
        · exact absurd hj (by simp)
    refine ⟨hmb, ?_⟩
    intro hnc
    apply mns_of_not_hit hmb
    rw [Bool.eq_false_iff]
    intro hc
    obtain ⟨a, ha, hEq⟩ := cycleHit_iff.mp hc
    exact hnc a ha hEq

/-- Witness for C5 at a concrete state: LEFT from the corner is off-grid,
RIGHT succeeds with the swapped board. -/
theorem C5_witness :
    make_next_state hashInj (.root boardA) Move.LEFT = none ∧
      make_next_state hashInj (.root boardA) Move.RIGHT =
        some (.succ (.root boardA)
          (swapCells boardA (List.indexOf agentChar boardA) 1)) := by
  constructor
  · exact (@C5_move_outcomes hashInj (.root boardA) Move.LEFT
      (by decide)).1 (by decide)
  · exact ((@C5_move_outcomes hashInj (.root boardA) Move.RIGHT
      (by decide)).2 1 (by decide)).2 (by decide)

/-! ## Claims C6 and C10: the heuristic scorer -/

theorem map_range_sum (g : Nat → Nat) (n : Nat) :
    ((List.range n).map g).sum = ∑ i in Finset.range n, g i := by
  induction n with
  | zero => simp
  | succ k ih =>
    rw [List.range_succ]
    simp [Finset.sum_range_succ, ih]

/-- The accumulation loop of `calc_score` is the sum of its per-cell
terms. -/
theorem calc_score_eq_sum (p : PuzzleState) (goal : Board) :
    calc_score p goal =
      ∑ i in Finset.range goal.length, scoreTerm p.getState goal i := by
  rw [← map_range_sum]
  have h : ∀ (l : List Nat) (a : Nat),
      List.foldl (fun ret i =>
        let c := List.getD goal i ' '
        if List.getD p.getState i ' ' ≠ c then
          ret + ((List.indexOf c p.getState : Int) - (i : Int)).natAbs
        else ret) a l = a + (l.map (scoreTerm p.getState goal)).sum := by
    intro l
    induction l with
    | nil => intro a; simp
    | cons x xs ih =>
      intro a
      rw [List.foldl_cons, List.map_cons, List.sum_cons, ih]
      have hx : (let c := List.getD goal x ' '
          if List.getD p.getState x ' ' ≠ c then
            a + ((List.indexOf c p.getState : Int) - (x : Int)).natAbs
          else a) = a + scoreTerm p.getState goal x := by
        unfold scoreTerm
        dsimp only
        split
        · rfl
        · omega
      rw [hx]
      omega
  have h2 := h (List.range goal.length) 0
  unfold calc_score
  rw [h2]
  omega

/-- C6: the heuristic score equals the sum, over the goal indices whose
symbol differs from the state's symbol there, of the absolute difference
between the flat index where that goal symbol (first) occurs in the
state's board and the goal index.  The result lives in `Nat`, so it is a
non-negative integer by construction. -/
theorem C6_score_formula (p : PuzzleState) (goal : Board) :
    calc_score p goal =
      ∑ i in (Finset.range goal.length).filter
        (fun i => List.getD goal i ' ' ≠ List.getD p.getState i ' '),
        ((List.indexOf (List.getD goal i ' ') p.getState : Int) -
          (i : Int)).natAbs := by
  rw [calc_score_eq_sum, Finset.sum_filter]
  apply Finset.sum_congr rfl
  intro i _
  unfold scoreTerm
  split
  · next h1 => rw [if_pos (Ne.symm h1)]
  · next h1 =>
    rw [if_neg]
    intro h2
    exact h1 (Ne.symm h2)

/-- A 16-cell goal board whose block label `q` occurs nowhere in
`boardA`. -/
def boardQ : Board := "q*              ".toList

/-- C10: when a goal cell's symbol differs from the state's symbol at that
index and occurs nowhere in the state's 16-cell board, `std::find` yields
the end iterator, i.e. flat index 16, and the term added for that cell is
the absolute difference between 16 and the goal index; `calc_score` is
total and still the sum of its per-cell terms. -/
theorem C10_missing_symbol (p : PuzzleState) (goal : Board) (i : Nat)
    (hlen : p.getState.length = 16) (hi : i < 16)
    (habs : List.getD goal i ' ' ∉ p.getState) :
    List.indexOf (List.getD goal i ' ') p.getState = 16 ∧
      scoreTerm p.getState goal i = ((16 : Int) - (i : Int)).natAbs ∧
      calc_score p goal = ∑ k in Finset.range goal.length,
        scoreTerm p.getState goal k := by
  have hidx : List.indexOf (List.getD goal i ' ') p.getState =
      p.getState.length := List.indexOf_eq_length.mpr habs
  have hidx16 : List.indexOf (List.getD goal i ' ') p.getState = 16 := by
    rw [hidx, hlen]
  refine ⟨hidx16, ?_, calc_score_eq_sum p goal⟩
  have hne : List.getD p.getState i ' ' ≠ List.getD goal i ' ' := by
    intro hEq
    apply habs
    rw [← hEq]
    have hi2 : i < p.getState.length := by omega
    rw [List.getD_eq_getElem p.getState ' ' hi2]
    exact List.getElem_mem hi2
  unfold scoreTerm
  rw [if_pos hne, hidx16]
  norm_num

/-- Witness for C10 with the label `q` absent from `boardA`. -/
theorem C10_witness :
    List.indexOf (List.getD boardQ 0 ' ') boardA = 16 ∧
      scoreTerm boardA boardQ 0 = ((16 : Int) - ((0 : Nat) : Int)).natAbs ∧
      calc_score (.root boardA) boardQ = ∑ k in Finset.range boardQ.length,
        scoreTerm boardA boardQ k :=
  C10_missing_symbol (.root boardA) boardQ 0 (by decide) (by decide)
    (by decide)

/-! ## Claim C9: the one-agent / fixed-multiset board invariant -/

theorem getState_mem_chainBoards (s : PuzzleState) :
    s.getState ∈ chainBoards s := by
  cases s <;> simp [chainBoards, PuzzleState.chain, PuzzleState.getState]

theorem chain_boards_perm {start : Board} {s : PuzzleState}
    (hv : validBoard start) (h : ValidChain start s) :
    ∀ b ∈ chainBoards s, List.Perm b start := by
  induction s with
  | root b0 =>
    intro b hb
    have hb0 : b0 = start := h
    simp only [chainBoards, PuzzleState.chain, PuzzleState.getState,
      List.map_cons, List.map_nil, List.mem_singleton] at hb
    subst hb
    subst hb0
    exact List.Perm.refl _
  | succ p b0 ih =>
    obtain ⟨hp, hstep⟩ := h
    intro b hb
    have hx : chainBoards (.succ p b0) = b0 :: chainBoards p := by
      simp [chainBoards, PuzzleState.chain, PuzzleState.getState]
    rw [hx] at hb
    have hpperm : List.Perm p.getState start :=
      ih hp p.getState (getState_mem_chainBoards p)
    rcases List.mem_cons.mp hb with rfl | hb2
    · obtain ⟨mv, hmv⟩ := hstep
      have hpv : validBoard p.getState := validBoard_perm hpperm hv
      exact (moveBoard_perm hpv hmv).trans hpperm
    · exact ih hp b hb2

/-- C9: a successor produced by the move generator from a valid 16-cell
one-agent board has the same multiset of cell symbols as the board it came
from — in particular it is again a valid one-agent board — and every board
on the predecessor chain of a state returned by either searcher started
from a valid board (hence every board of the returned solution) is a
permutation of the start board with exactly one agent marker. -/
theorem C9_invariants {hashFn : Board → Nat} :
    (∀ (p : PuzzleState) (mv : Move) (t : PuzzleState),
      validBoard p.getState → make_next_state hashFn p mv = some t →
      List.Perm t.getState p.getState ∧ validBoard t.getState) ∧
    ∀ (start goal : Board) (fuel : Nat) (s : PuzzleState),
      validBoard start →
      (breadthFirst hashFn start goal fuel = .found s ∨
        aStar hashFn start goal fuel = .found s) →
      ∀ b ∈ chainBoards s, List.Perm b start ∧
        List.count agentChar b = 1 := by
  constructor
  · intro p mv t hv hmk
    obtain ⟨b2, hmb, -, rfl⟩ := mns_some_elim hmk
    have hperm : List.Perm b2 p.getState := moveBoard_perm hv hmb
    exact ⟨hperm, validBoard_perm hperm hv⟩
  · intro start goal fuel s hv hfound
    have hvc : ValidChain start s := by
      rcases hfound with h | h
      · exact (breadthFirst_sound h).1
      · exact (aStar_sound h).1
    intro b hb
    have hperm := chain_boards_perm hv hvc b hb
    refine ⟨hperm, ?_⟩
    rw [hperm.count_eq]
    exact hv.2

/-- Witness for C9 at a concrete successor and a concrete solved search. -/
theorem C9_witness :
    (List.Perm (PuzzleState.succ (.root boardA) boardB).getState
        (PuzzleState.root boardA).getState ∧
      validBoard (PuzzleState.succ (.root boardA) boardB).getState) ∧
    ∀ b ∈ chainBoards (PuzzleState.succ (.root boardA) boardB),
      List.Perm b boardA ∧ List.count agentChar b = 1 := by
  constructor
  · exact (@C9_invariants hashInj).1 (.root boardA) Move.RIGHT
      (.succ (.root boardA) boardB) (by decide) (by decide)
  · exact (@C9_invariants hashInj).2 boardA boardB 5
      (.succ (.root boardA) boardB) (by decide) (Or.inl (by decide))

/-! ## Claim C7: termination on unreachable goals -/

/-- A search-tree chain whose boards never repeat: exactly the chains the
per-branch cycle rejection produces. -/
def GoodChain (start : Board) (s : PuzzleState) : Prop :=
  ValidChain start s ∧ (chainBoards s).Nodup

/-- Upper bound on the number of distinct boards a branch can visit: the
number of distinct permutations of the start board. -/
def permBound (b : Board) : Nat := b.permutations.dedup.length

/-- Weight of a frontier state in the termination measure. -/
def stateWeight (start : Board) (s : PuzzleState) : Nat :=
  5 ^ (permBound start - s.depth)

/-- Termination measure of the breadth-first deque. -/
def queueMeasure (start : Board) (queue : List PuzzleState) : Nat :=
  (queue.map (stateWeight start)).sum

/-- Termination measure of the A* frontier. -/
def frontierMeasure (start : Board) (front : List (PuzzleState × Nat)) : Nat :=
  (front.map (fun q => stateWeight start q.1)).sum

theorem chain_eq_cons_drop (s : PuzzleState) :
    s.chain = s :: s.chain.drop 1 := by
  cases s <;> simp [PuzzleState.chain]

theorem goodChain_depth_lt {start : Board} {s : PuzzleState}
    (hv : validBoard start) (h : GoodChain start s) :
    s.depth + 1 ≤ permBound start := by
  have hsub : ∀ b ∈ chainBoards s, b ∈ start.permutations := fun b hb =>
    List.mem_permutations.mpr (chain_boards_perm hv h.1 b hb)
  have h1 : (chainBoards s).toFinset.card = (chainBoards s).length :=
    List.toFinset_card_of_nodup h.2
  have h2 : (chainBoards s).toFinset ⊆ start.permutations.toFinset := by
    intro x hx
    rw [List.mem_toFinset] at hx ⊢
    exact hsub x hx
  have h3 := Finset.card_le_card h2
  rw [h1, List.card_toFinset, chainBoards_length] at h3
  exact h3

theorem mns_good_chain {hashFn : Board → Nat} {start : Board}
    {p t : PuzzleState} {mv : Move} (hv : validBoard start)
    (hg : GoodChain start p) (h : make_next_state hashFn p mv = some t) :
    GoodChain start t := by
  obtain ⟨b2, hmb, hcf, rfl⟩ := mns_some_elim h
  have hpv : validBoard p.getState :=
    validBoard_perm
      (chain_boards_perm hv hg.1 p.getState (getState_mem_chainBoards p)) hv
  refine ⟨⟨hg.1, mv, hmb⟩, ?_⟩
  have hx : chainBoards (.succ p b2) = b2 :: chainBoards p := by
    simp [chainBoards, PuzzleState.chain, PuzzleState.getState]
  rw [hx, List.nodup_cons]
  refine ⟨?_, hg.2⟩
  intro hmem
  obtain ⟨a, ha, haeq⟩ := List.mem_map.mp hmem
  have ha2 : a ∈ p :: p.chain.drop 1 := by
    rw [← chain_eq_cons_drop p]
    exact ha
  have hall : ∀ a2 ∈ p.chain.drop 1, hashFn b2 ≠ hashFn a2.getState := by
    intro a2 ha2 heq
    have hcy : cycleHit hashFn p (hashFn b2) = true :=
      cycleHit_iff.mpr ⟨a2, ha2, heq⟩
    rw [hcf] at hcy
    exact Bool.noConfusion hcy
  rcases List.mem_cons.mp ha2 with rfl | hdrop
  · exact moveBoard_ne hpv hmb haeq.symm
  · exact hall a hdrop (by rw [haeq])

theorem bfsLoop_no_fuel_out {hashFn : Board → Nat} {gh : Nat} {start : Board}
    (hv : validBoard start) :
    ∀ (fuel : Nat) (queue : List PuzzleState),
      (∀ q ∈ queue, GoodChain start q) →
      queueMeasure start queue < fuel →
      bfsLoop hashFn gh fuel queue ≠ .outOfFuel := by
  intro fuel
  induction fuel with
  | zero => intro queue hq hm; exact absurd hm (Nat.not_lt_zero _)
  | succ n ih =>
    intro queue hq hm
    rw [bfsLoop_succ]
    cases hL : queue.getLast? with
    | none => simp
    | some parent =>
      show (match stepMoves hashFn gh parent allMoves queue.dropLast with
          | (some next, _) => SearchResult.found next
          | (none, queue2) => bfsLoop hashFn gh n queue2) ≠
        SearchResult.outOfFuel
      obtain ⟨ys, hys⟩ := List.getLast?_eq_some_iff.mp hL
      have hdl : queue.dropLast = ys := by rw [hys]; simp
      cases hsm : stepMoves hashFn gh parent allMoves queue.dropLast with
      | mk o q2 =>
        cases o with
        | some c => simp
        | none =>
          show bfsLoop hashFn gh n q2 ≠ .outOfFuel
          obtain ⟨new, hres, hlen, hmem, -⟩ := stepMoves_none hsm
          have hgp : GoodChain start parent :=
            hq parent (List.mem_of_getLast?_eq_some hL)
          have hq2 : ∀ q ∈ q2, GoodChain start q := by
            intro q hq3
            rw [hres, hdl] at hq3
            rcases List.mem_append.mp hq3 with h1 | h1
            · obtain ⟨mv, -, hmk, -⟩ := hmem q h1
              exact mns_good_chain hv hgp hmk
            · exact hq q (by rw [hys]; exact List.mem_append.mpr (Or.inl h1))
          have hdepth : parent.depth + 1 ≤ permBound start :=
            goodChain_depth_lt hv hgp
          have hw : 5 ^ (permBound start - parent.depth) =
              5 * 5 ^ (permBound start - parent.depth - 1) := by
            rw [← pow_succ']
            congr 1
            omega
          have hnewsum : queueMeasure start new ≤
              4 * 5 ^ (permBound start - parent.depth - 1) := by
            have h1 : ∀ w ∈ new.map (stateWeight start),
                w ≤ 5 ^ (permBound start - parent.depth - 1) := by
              intro w hw2
              obtain ⟨x, hx, rfl⟩ := List.mem_map.mp hw2
              obtain ⟨mv, -, hmk, -⟩ := hmem x hx
              have hd := mns_depth hmk
              unfold stateWeight
              rw [hd]
              have he : permBound start - (parent.depth + 1) =
                  permBound start - parent.depth - 1 := by omega
              rw [he]
            have h2 := List.sum_le_card_nsmul (new.map (stateWeight start))
              (5 ^ (permBound start - parent.depth - 1)) h1
            rw [List.length_map, smul_eq_mul] at h2
            have h3 : new.length ≤ 4 := by simpa [allMoves] using hlen
            calc queueMeasure start new ≤
                new.length * 5 ^ (permBound start - parent.depth - 1) := h2
              _ ≤ 4 * 5 ^ (permBound start - parent.depth - 1) :=
                Nat.mul_le_mul_right _ h3
          have hsplit : queueMeasure start queue =
              queueMeasure start ys + 5 ^ (permBound start - parent.depth) := by
            rw [hys]
            unfold queueMeasure stateWeight
            simp
          have hq2m : queueMeasure start q2 =
              queueMeasure start new + queueMeasure start ys := by
            rw [hres, hdl]
            unfold queueMeasure
            simp
          have hpow : 0 < 5 ^ (permBound start - parent.depth - 1) :=
            Nat.pos_pow_of_pos _ (by omega)
          refine ih q2 hq2 ?_
          rw [hq2m]
          rw [hsplit, hw] at hm
          omega

theorem aStarLoop_no_fuel_out {hashFn : Board → Nat} {gh : Nat} {goal : Board}
    {start : Board} (hv : validBoard start) :
    ∀ (fuel : Nat) (front : List (PuzzleState × Nat)),
      (∀ q ∈ front, GoodChain start q.1) →
      frontierMeasure start front < fuel →
      aStarLoop hashFn gh goal fuel front ≠ .outOfFuel := by
  intro fuel
  induction fuel with
  | zero => intro front hq hm; exact absurd hm (Nat.not_lt_zero _)
  | succ n ih =>
    intro front hq hm
    rw [aStarLoop_succ]
    cases hP : popMin front with
    | none => simp
    | some br =>
      cases br with
      | mk best rest =>
        show (match stepMovesA hashFn gh goal best.1 allMoves rest with
            | (some next, _) => SearchResult.found next
            | (none, front2) => aStarLoop hashFn gh goal n front2) ≠
          SearchResult.outOfFuel
        have hperm := popMin_perm hP
        have hbest : best ∈ front := hperm.mem_iff.mpr (List.mem_cons_self _ _)
        have hgp : GoodChain start best.1 := hq best hbest
        cases hsm : stepMovesA hashFn gh goal best.1 allMoves rest with
        | mk o f2 =>
          cases o with
          | some c => simp
          | none =>
            show aStarLoop hashFn gh goal n f2 ≠ .outOfFuel
            obtain ⟨new, hres, hlen, hmem⟩ := stepMovesA_none hsm
            have hq2 : ∀ q ∈ f2, GoodChain start q.1 := by
              intro q hq3
              rw [hres] at hq3
              rcases List.mem_append.mp hq3 with h1 | h1
              · obtain ⟨mv, -, hmk, -⟩ := hmem q h1
                exact mns_good_chain hv hgp hmk
              · exact hq q (hperm.mem_iff.mpr (List.mem_cons_of_mem _ h1))
            have hdepth : best.1.depth + 1 ≤ permBound start :=
              goodChain_depth_lt hv hgp
            have hw : 5 ^ (permBound start - best.1.depth) =
                5 * 5 ^ (permBound start - best.1.depth - 1) := by
              rw [← pow_succ']
              congr 1
              omega
            have hnewsum : frontierMeasure start new ≤
                4 * 5 ^ (permBound start - best.1.depth - 1) := by
              have h1 : ∀ w ∈ new.map (fun q => stateWeight start q.1),
                  w ≤ 5 ^ (permBound start - best.1.depth - 1) := by
                intro w hw2
                obtain ⟨x, hx, rfl⟩ := List.mem_map.mp hw2
                obtain ⟨mv, -, hmk, -⟩ := hmem x hx
                have hd := mns_depth hmk
                unfold stateWeight
                rw [hd]
                have he : permBound start - (best.1.depth + 1) =
                    permBound start - best.1.depth - 1 := by omega
                rw [he]
              have h2 := List.sum_le_card_nsmul
                (new.map (fun q => stateWeight start q.1))
                (5 ^ (permBound start - best.1.depth - 1)) h1
              rw [List.length_map, smul_eq_mul] at h2
              have h3 : new.length ≤ 4 := by simpa [allMoves] using hlen
              calc frontierMeasure start new ≤
                  new.length * 5 ^ (permBound start - best.1.depth - 1) := h2
                _ ≤ 4 * 5 ^ (permBound start - best.1.depth - 1) :=
                  Nat.mul_le_mul_right _ h3
            have hsplit : frontierMeasure start front =
                5 ^ (permBound start - best.1.depth) +
                  frontierMeasure start rest := by
              unfold frontierMeasure
              rw [(hperm.map (fun q => stateWeight start q.1)).sum_eq]
              simp [stateWeight]
            have hq2m : frontierMeasure start f2 =
                frontierMeasure start new + frontierMeasure start rest := by
              rw [hres]
              unfold frontierMeasure
              simp
            have hpow : 0 < 5 ^ (permBound start - best.1.depth - 1) :=
              Nat.pos_pow_of_pos _ (by omega)
            refine ih f2 hq2 ?_
            rw [hq2m]
            rw [hsplit, hw] at hm
            omega

theorem reachable_perm {start goal : Board} (hv : validBoard start)
    (h : Reachable start goal) : List.Perm goal start := by
  obtain ⟨n, hn⟩ := h
  induction n generalizing start with
  | zero =>
    have he : start = goal := hn
    subst he
    exact List.Perm.refl _
  | succ k ih =>
    obtain ⟨b2, ⟨mv, hmv⟩, hr⟩ := hn
    have hperm : List.Perm b2 start := moveBoard_perm hv hmv
    have hv2 : validBoard b2 := validBoard_perm hperm hv
    exact (ih hv2 hr).trans hperm

/-- C7: for every valid 16-cell one-agent start board and every goal board
unreachable from it by any sequence of agent moves, both searchers (under
the collision-free model of the hash) terminate — a finite fuel makes the
loop stop without running out — and return the explicit no-solution
result (the null pointer, modelled by `exhausted`) rather than running
forever. -/
theorem C7_unreachable_terminates {hashFn : Board → Nat} {start goal : Board}
    (hinj : Function.Injective hashFn) (hv : validBoard start)
    (hur : ¬ Reachable start goal) :
    ∃ fuel, breadthFirst hashFn start goal fuel = .exhausted ∧
      aStar hashFn start goal fuel = .exhausted := by
  have h0 : ¬ (PuzzleState.root start).getHash hashFn = hashFn goal := by
    intro hEq
    exact hur ⟨0, hinj hEq⟩
  have hnotfound : ∀ s, ValidChain start s →
      s.getHash hashFn = hashFn goal → False := by
    intro s hvc hh
    have hb : s.getState = goal := hinj hh
    have hr := validChain_reach hvc
    rw [hb] at hr
    exact hur ⟨s.depth, hr⟩
  refine ⟨5 ^ permBound start + 1, ?_, ?_⟩
  · unfold breadthFirst
    rw [if_neg h0]
    have hgq : ∀ q ∈ [PuzzleState.root start], GoodChain start q := by
      intro q hq
      rw [List.mem_singleton] at hq
      subst hq
      exact ⟨rfl, by
        simp [chainBoards, PuzzleState.chain, PuzzleState.getState]⟩
    have hmeas : queueMeasure start [PuzzleState.root start] <
        5 ^ permBound start + 1 := by
      unfold queueMeasure stateWeight
      simp [PuzzleState.depth]
    have hnf := @bfsLoop_no_fuel_out hashFn (hashFn goal) start hv
      (5 ^ permBound start + 1) [PuzzleState.root start] hgq hmeas
    cases hres : bfsLoop hashFn (hashFn goal) (5 ^ permBound start + 1)
        [PuzzleState.root start] with
    | found s =>
      exfalso
      have hs := bfsLoop_sound (fun q hq => (hgq q hq).1) hres
      exact hnotfound s hs.1 hs.2
    | exhausted => rfl
    | outOfFuel => exact absurd hres hnf
  · unfold aStar
    rw [if_neg h0]
    have hgq : ∀ q ∈ [(PuzzleState.root start,
        calc_score (PuzzleState.root start) goal)], GoodChain start q.1 := by
      intro q hq
      rw [List.mem_singleton] at hq
      subst hq
      exact ⟨rfl, by
        simp [chainBoards, PuzzleState.chain, PuzzleState.getState]⟩
    have hmeas : frontierMeasure start [(PuzzleState.root start,
        calc_score (PuzzleState.root start) goal)] <
        5 ^ permBound start + 1 := by
      unfold frontierMeasure stateWeight
      simp [PuzzleState.depth]
    have hnf := @aStarLoop_no_fuel_out hashFn (hashFn goal) goal start hv
      (5 ^ permBound start + 1) [(PuzzleState.root start,
        calc_score (PuzzleState.root start) goal)] hgq hmeas
    cases hres : aStarLoop hashFn (hashFn goal) goal
        (5 ^ permBound start + 1) [(PuzzleState.root start,
        calc_score (PuzzleState.root start) goal)] with
    | found s =>
      exfalso
      have hs := aStarLoop_sound (fun q hq => (hgq q hq).1) hres
      exact hnotfound s hs.1 hs.2
    | exhausted => rfl
    | outOfFuel => exact absurd hres hnf

/-- Witness for C7: the goal uses the block label `q`, absent from the
start board, so no sequence of swaps reaches it. -/
theorem C7_witness :
    ∃ fuel, breadthFirst hashInj boardA boardQ fuel = .exhausted ∧
      aStar hashInj boardA boardQ fuel = .exhausted :=
  C7_unreachable_terminates hashInj_injective (by decide)
    (fun hr => absurd ((reachable_perm (by decide) hr).count_eq 'q')
      (by decide))

/-! ## Shortest paths: infrastructure for breadth-first optimality -/

theorem reachableIn_iff_path {n : Nat} {s g : Board} :
    ReachableIn n s g ↔ ∃ l : List Board, l.length = n ∧
      List.Chain' Step (s :: l) ∧ (s :: l).getLast? = some g := by
  induction n generalizing s with
  | zero =>
    constructor
    · intro h
      exact ⟨[], rfl, List.chain'_singleton s, by
        have he : s = g := h
        simp [he]⟩
    · rintro ⟨l, hlen, -, hlast⟩
      rw [List.length_eq_zero] at hlen
      subst hlen
      simp at hlast
      exact hlast
  | succ k ih =>
    constructor
    · rintro ⟨b2, hst, hr⟩
      obtain ⟨l, hlen, hchain, hlast⟩ := ih.mp hr
      refine ⟨b2 :: l, by simp [hlen], List.chain'_cons.mpr ⟨hst, hchain⟩, ?_⟩
      rw [List.getLast?_cons_cons]
      exact hlast
    · rintro ⟨l, hlen, hchain, hlast⟩
      cases l with
      | nil => simp at hlen
      | cons b2 t =>
        rw [List.chain'_cons] at hchain
        rw [List.getLast?_cons_cons] at hlast
        exact ⟨b2, hchain.1, ih.mpr ⟨t, by simpa using hlen, hchain.2, hlast⟩⟩

theorem not_nodup_decomp {l : List Board} (h : ¬ l.Nodup) :
    ∃ (x : Board) (L1 L2 L3 : List Board), l = L1 ++ x :: L2 ++ x :: L3 := by
  induction l with
  | nil => exact absurd List.nodup_nil h
  | cons a t ih =>
    by_cases hmem : a ∈ t
    · obtain ⟨T1, T2, rfl⟩ := List.append_of_mem hmem
      exact ⟨a, [], T1, T2, by simp⟩
    · have hnt : ¬ t.Nodup := by
        intro hnd
        exact h (List.nodup_cons.mpr ⟨hmem, hnd⟩)
      obtain ⟨x, L1, L2, L3, rfl⟩ := ih hnt
      exact ⟨x, a :: L1, L2, L3, by simp⟩

theorem chain_splice {x : Board} {L1 L2 L3 : List Board}
    (hc : List.Chain' Step (L1 ++ x :: L2 ++ x :: L3)) :
    List.Chain' Step (L1 ++ x :: L3) ∧
      (L1 ++ x :: L3).getLast? = (L1 ++ x :: L2 ++ x :: L3).getLast? := by
  have hre : L1 ++ x :: L2 ++ x :: L3 = (L1 ++ x :: L2) ++ (x :: L3) := by
    simp
  rw [hre] at hc
  rw [List.chain'_append] at hc
  obtain ⟨hc1, hc2, hlink⟩ := hc
  rw [List.chain'_append] at hc1
  obtain ⟨hcL1, -, hlink1⟩ := hc1
  constructor
  · rw [List.chain'_append]
    exact ⟨hcL1, hc2, by simpa using hlink1⟩
  · rw [hre]
    rw [List.getLast?_append, List.getLast?_append]
    cases hgl : (x :: L3).getLast? with
    | none =>
      rw [List.getLast?_eq_none_iff] at hgl
      exact absurd hgl (List.cons_ne_nil x L3)
    | some a => simp [hgl]

theorem exists_nodup_path : ∀ (n : Nat) (s g : Board) (l : List Board),
    l.length ≤ n → List.Chain' Step (s :: l) → (s :: l).getLast? = some g →
    ∃ l2 : List Board, l2.length ≤ l.length ∧ List.Chain' Step (s :: l2) ∧
      (s :: l2).getLast? = some g ∧ (s :: l2).Nodup := by
  intro n
  induction n with
  | zero =>
    intro s g l hlen hc hg
    rw [Nat.le_zero, List.length_eq_zero] at hlen
    subst hlen
    exact ⟨[], le_refl _, hc, hg, List.nodup_singleton s⟩
  | succ k ih =>
    intro s g l hlen hc hg
    by_cases hnd : (s :: l).Nodup
    · exact ⟨l, le_refl _, hc, hg, hnd⟩
    · obtain ⟨x, L1, L2, L3, hdec⟩ := not_nodup_decomp hnd
      rw [hdec] at hc hg
      obtain ⟨hc2, hg2⟩ := chain_splice hc
      rw [← hg2] at hg
      have hlenlt : (L1 ++ x :: L3).length < (s :: l).length := by
        have := congrArg List.length hdec
        simp at this ⊢
        omega
      cases L1 with
      | nil =>
        have hsx : s = x := by
          have h0 := congrArg (fun t => t.getD 0 x) hdec
          simpa using h0
        subst hsx
        have hlen3 : L3.length ≤ k := by
          simp at hlenlt
          omega
        obtain ⟨l2, hl2, hcc, hgg, hnn⟩ := ih s g L3 hlen3 (by simpa using hc2)
          (by simpa using hg)
        refine ⟨l2, ?_, hcc, hgg, hnn⟩
        simp at hlenlt
        omega
      | cons c L1t =>
        have hcs : c = s := by
          have h0 := congrArg (fun t => t.getD 0 c) hdec
          simp at h0
          exact h0.symm
        subst hcs
        have htail : c :: (L1t ++ x :: L3) = (c :: L1t) ++ x :: L3 := by simp
        have hlen3 : (L1t ++ x :: L3).length ≤ k := by
          simp at hlenlt ⊢
          omega
        obtain ⟨l2, hl2, hcc, hgg, hnn⟩ := ih c g (L1t ++ x :: L3) hlen3
          (by rw [htail]; exact hc2) (by rw [htail]; exact hg)
        refine ⟨l2, ?_, hcc, hgg, hnn⟩
        have := congrArg List.length hdec
        simp at this hl2 ⊢
        omega

/-- The search-tree state whose chain follows the boards `b0 :: l` from
the root. -/
def pathState (b0 : Board) (l : List Board) : PuzzleState :=
  l.foldl PuzzleState.succ (.root b0)

theorem foldl_succ_depth : ∀ (l : List Board) (st : PuzzleState),
    (l.foldl PuzzleState.succ st).depth = st.depth + l.length := by
  intro l
  induction l with
  | nil => intro st; simp
  | cons b t ih =>
    intro st
    rw [List.foldl_cons, ih]
    simp [PuzzleState.depth]
    omega

theorem pathState_depth (b0 : Board) (l : List Board) :
    (pathState b0 l).depth = l.length := by
  unfold pathState
  rw [foldl_succ_depth]
  simp [PuzzleState.depth]

theorem foldl_succ_chainBoards : ∀ (l : List Board) (st : PuzzleState),
    chainBoards (l.foldl PuzzleState.succ st) = l.reverse ++ chainBoards st := by
  intro l
  induction l with
  | nil => intro st; simp
  | cons b t ih =>
    intro st
    rw [List.foldl_cons, ih]
    have hx : chainBoards (PuzzleState.succ st b) = b :: chainBoards st := by
      simp [chainBoards, PuzzleState.chain, PuzzleState.getState]
    rw [hx]
    simp

theorem pathState_chainBoards (b0 : Board) (l : List Board) :
    chainBoards (pathState b0 l) = (b0 :: l).reverse := by
  unfold pathState
  rw [foldl_succ_chainBoards]
  simp [chainBoards, PuzzleState.chain, PuzzleState.getState]

theorem pathState_append (b0 : Board) (l : List Board) (x : Board) :
    pathState b0 (l ++ [x]) = .succ (pathState b0 l) x := by
  unfold pathState
  rw [List.foldl_append]
  rfl

theorem pathState_getState (b0 : Board) (l : List Board) :
    (pathState b0 l).getState = (b0 :: l).getLast?.getD b0 := by
  induction l using List.reverseRecOn with
  | nil => simp [pathState, PuzzleState.getState]
  | append_singleton t x ih =>
    rw [pathState_append]
    have h1 : (b0 :: (t ++ [x])).getLast? = some x := by
      rw [show b0 :: (t ++ [x]) = (b0 :: t) ++ [x] by simp]
      exact List.getLast?_concat _
    rw [h1]
    rfl

theorem foldl_succ_validChain {start : Board} : ∀ (l : List Board)
    (st : PuzzleState), ValidChain start st →
    List.Chain' Step (st.getState :: l) →
    ValidChain start (l.foldl PuzzleState.succ st) := by
  intro l
  induction l with
  | nil => intro st hv _; exact hv
  | cons b t ih =>
    intro st hv hc
    rw [List.chain'_cons] at hc
    rw [List.foldl_cons]
    refine ih (PuzzleState.succ st b) ⟨hv, hc.1⟩ ?_
    have hx : (PuzzleState.succ st b).getState = b := rfl
    rw [hx]
    exact hc.2

theorem pathState_validChain {start : Board} {l : List Board}
    (hc : List.Chain' Step (start :: l)) :
    ValidChain start (pathState start l) := by
  unfold pathState
  exact foldl_succ_validChain l (.root start) rfl hc

theorem pathState_take_getState (start : Board) (P : List Board) (j : Nat)
    (hj : j ≤ P.length) :
    (pathState start (P.take j)).getState = (start :: P).getD j start := by
  rw [pathState_getState]
  have h1 : start :: P.take j = (start :: P).take (j + 1) := by
    rw [List.take_succ_cons]
  rw [h1, List.getLast?_eq_getElem?]
  have hlen : ((start :: P).take (j + 1)).length = j + 1 := by
    simp
    omega
  rw [hlen]
  simp only [Nat.add_sub_cancel]
  rw [List.getElem?_take_of_succ]
  rw [List.getD_eq_getElem?_getD]

theorem nodup_not_mem_take {l : List Board} (hnd : l.Nodup) {i : Nat}
    (hi : i < l.length) : l[i] ∉ l.take i := by
  intro hmem
  have hnd2 : (l.take i ++ l[i] :: l.drop (i + 1)).Nodup := by
    rw [← List.drop_eq_getElem_cons hi, List.take_append_drop]
    exact hnd
  have hdisj := List.disjoint_of_nodup_append hnd2
  exact hdisj hmem (List.mem_cons_self _ _)

theorem chain'_step_getD {l : List Board} (hc : List.Chain' Step l) {i : Nat}
    (hi : i + 1 < l.length) (d : Board) :
    Step (l.getD i d) (l.getD (i + 1) d) := by
  have h := List.chain'_iff_get.mp hc i (by omega)
  rw [List.getD_eq_getElem l d (by omega), List.getD_eq_getElem l d hi]
  simpa [List.get_eq_getElem] using h

theorem prefix_child_accepted {hashFn : Board → Nat} {start : Board}
    {P : List Board} (hinj : Function.Injective hashFn)
    (hnd : (start :: P).Nodup) (hchain : List.Chain' Step (start :: P))
    {j : Nat} (hj : j < P.length) :
    ∃ mv, make_next_state hashFn (pathState start (P.take j)) mv =
      some (pathState start (P.take (j + 1))) := by
  have hstep : Step ((start :: P).getD j start)
      ((start :: P).getD (j + 1) start) :=
    chain'_step_getD hchain (by simp; omega) start
  obtain ⟨mv, hmv⟩ := hstep
  refine ⟨mv, ?_⟩
  have hgs : (pathState start (P.take j)).getState =
      (start :: P).getD j start :=
    pathState_take_getState start P j (by omega)
  have hmb : moveBoard (pathState start (P.take j)).getState mv =
      some ((start :: P).getD (j + 1) start) := by
    rw [hgs]
    exact hmv
  have hres : pathState start (P.take (j + 1)) =
      .succ (pathState start (P.take j)) ((start :: P).getD (j + 1) start) := by
    have ht : P.take (j + 1) = P.take j ++ [P[j]] := by
      rw [List.take_succ]
      simp [List.getElem?_eq_getElem hj]
    rw [ht, pathState_append]
    congr 1
    rw [List.getD_cons_succ, List.getD_eq_getElem P start hj]
  rw [hres]
  apply mns_of_not_hit hmb
  rw [Bool.eq_false_iff]
  intro hcy
  obtain ⟨a, ha, hEq⟩ := cycleHit_iff.mp hcy
  have hmem : a.getState ∈ (chainBoards (pathState start (P.take j))).drop 1 := by
    rw [chainBoards, ← List.map_drop]
    exact List.mem_map_of_mem _ ha
  rw [pathState_chainBoards] at hmem
  have hmem2 : a.getState ∈ start :: P.take j := by
    have h2 := List.drop_subset _ _ hmem
    rw [List.mem_reverse] at h2
    exact h2
  have hbe : (start :: P).getD (j + 1) start = a.getState := hinj hEq
  have h3 : a.getState ∈ (start :: P).take (j + 1) := by
    rw [List.take_succ_cons]
    exact hmem2
  rw [← hbe] at h3
  have hj1 : j + 1 < (start :: P).length := by simp; omega
  have h4 := nodup_not_mem_take hnd hj1
  rw [List.getD_eq_getElem _ start hj1] at h3
  exact h4 h3

/-- Core of breadth-first optimality.  Parameters: a minimal-length,
repetition-free path `start :: P` to the goal; invariant: the queue splits
as `B ++ A` with the not-yet-expanded level `A` (depth `L`, popped from
the back) and the next level `B` (depth `L + 1`, pushed at the front), and
the queue contains the search-tree node that follows the first `j` moves
of `P`.  Then the FIFO loop can only run out of fuel or return a state at
depth exactly `P.length`. -/
theorem bfsLoop_opt {hashFn : Board → Nat} {start goal : Board}
    (hinj : Function.Injective hashFn) {P : List Board}
    (hchain : List.Chain' Step (start :: P))
    (hlast : (start :: P).getLast? = some goal)
    (hnd : (start :: P).Nodup)
    (hmin : ∀ m, ReachableIn m start goal → P.length ≤ m) :
    ∀ (fuel : Nat) (queue : List PuzzleState) (j L : Nat)
      (B A : List PuzzleState),
      queue = B ++ A → A ≠ [] → j < P.length →
      pathState start (P.take j) ∈ queue →
      (∀ q ∈ queue, ValidChain start q) →
      (∀ q ∈ A, q.depth = L) → (∀ q ∈ B, q.depth = L + 1) →
      bfsLoop hashFn (hashFn goal) fuel queue = .outOfFuel ∨
        ∃ s, bfsLoop hashFn (hashFn goal) fuel queue = .found s ∧
          s.depth = P.length := by
  intro fuel
  induction fuel with
  | zero =>
    intro queue j L B A hqBA hA hj hpn hval hdA hdB
    exact Or.inl rfl
  | succ n ih =>
    intro queue j L B A hqBA hA hj hpn hval hdA hdB
    obtain ⟨A2, e, hAe⟩ := (List.eq_nil_or_concat A).resolve_left hA
    rw [List.concat_eq_append] at hAe
    have hqe : queue = (B ++ A2) ++ [e] := by rw [hqBA, hAe]; simp
    have hgl : queue.getLast? = some e := by
      rw [hqe]
      exact List.getLast?_concat _
    have hdl : queue.dropLast = B ++ A2 := by rw [hqe]; simp
    have he_mem : e ∈ A := by rw [hAe]; simp
    have hde : e.depth = L := hdA e he_mem
    have hvale : ValidChain start e :=
      hval e (by rw [hqBA]; exact List.mem_append.mpr (Or.inr he_mem))
    have hdpn : (pathState start (P.take j)).depth = j := by
      rw [pathState_depth, List.length_take]
      omega
    have hLj : L ≤ j := by
      have hpn2 : pathState start (P.take j) ∈ B ++ A := by
        rw [← hqBA]
        exact hpn
      rcases List.mem_append.mp hpn2 with h1 | h1
      · have := hdB _ h1
        omega
      · have := hdA _ h1
        omega
    have hred : bfsLoop hashFn (hashFn goal) (n + 1) queue =
        (match stepMoves hashFn (hashFn goal) e allMoves queue.dropLast with
          | (some next, _) => SearchResult.found next
          | (none, queue2) => bfsLoop hashFn (hashFn goal) n queue2) := by
      rw [bfsLoop_succ, hgl]
    cases hsm : stepMoves hashFn (hashFn goal) e allMoves queue.dropLast with
    | mk o q2 =>
      cases o with
      | some c =>
        right
        refine ⟨c, ?_, ?_⟩
        · rw [hred, hsm]
        · obtain ⟨mv, -, hmk, hh⟩ := stepMoves_some hsm
          have hvc : ValidChain start c := mns_valid_chain hvale hmk
          have hgc : c.getState = goal := hinj hh
          have hrc : ReachableIn c.depth start goal := by
            have hr := validChain_reach hvc
            rwa [hgc] at hr
          have hge := hmin _ hrc
          have hdc := mns_depth hmk
          omega
      | none =>
        have hred2 : bfsLoop hashFn (hashFn goal) (n + 1) queue =
            bfsLoop hashFn (hashFn goal) n q2 := by rw [hred, hsm]
        rw [hred2]
        obtain ⟨new, hres, -, hmem, hcov⟩ := stepMoves_none hsm
        rw [hdl] at hres
        have hvnew : ∀ x ∈ new, ValidChain start x := by
          intro x hx
          obtain ⟨mv, -, hmk, -⟩ := hmem x hx
          exact mns_valid_chain hvale hmk
        have hvq2 : ∀ q ∈ q2, ValidChain start q := by
          intro q hq2
          rw [hres] at hq2
          rcases List.mem_append.mp hq2 with h1 | h1
          · exact hvnew q h1
          · refine hval q ?_
            rw [hqe]
            exact List.mem_append.mpr (Or.inl h1)
        have hdnew : ∀ x ∈ new, x.depth = L + 1 := by
          intro x hx
          obtain ⟨mv, -, hmk, -⟩ := hmem x hx
          rw [mns_depth hmk, hde]
        have hA2d : ∀ q ∈ A2, q.depth = L := by
          intro q hq2
          exact hdA q (by rw [hAe]; exact List.mem_append.mpr (Or.inl hq2))
        by_cases hpe : pathState start (P.take j) = e
        · obtain ⟨mvp, hmp⟩ := prefix_child_accepted hinj hnd hchain hj
          rw [hpe] at hmp
          have hchild := hcov mvp (by cases mvp <;> simp [allMoves]) _ hmp
          obtain ⟨mv2, -, -, hneq⟩ := hmem _ hchild
          have hj2 : j + 1 < P.length := by
            rcases Nat.lt_or_ge (j + 1) P.length with hlt | hge2
            · exact hlt
            · exfalso
              have hj1 : j + 1 = P.length := by omega
              have hgs := pathState_take_getState start P (j + 1) (by omega)
              have hgoal : (start :: P).getD (j + 1) start = goal := by
                rw [hj1]
                rw [List.getLast?_eq_getElem?] at hlast
                have hlen2 : (start :: P).length - 1 = P.length := by simp
                rw [hlen2] at hlast
                rw [List.getD_eq_getElem?_getD, hlast]
                rfl
              apply hneq
              unfold PuzzleState.getHash
              rw [hgs, hgoal]
          have hjL : j = L := by
            have hdpe : e.depth = j := by rw [← hpe]; exact hdpn
            omega
          have hdchild : (pathState start (P.take (j + 1))).depth = L + 1 :=
            hdnew _ hchild
          by_cases hAd : A2 = []
          · refine ih q2 (j + 1) (L + 1) [] (new ++ B) ?_ ?_ hj2 ?_ hvq2 ?_ ?_
            · rw [hres, hAd]
              simp
            · intro hcon
              have : new = [] := by
                rcases List.append_eq_nil.mp hcon with ⟨h1, -⟩
                exact h1
              rw [this] at hchild
              exact absurd hchild (List.not_mem_nil _)
            · rw [hres]
              exact List.mem_append.mpr (Or.inl hchild)
            · intro q hq2
              rcases List.mem_append.mp hq2 with h1 | h1
              · exact hdnew q h1
              · exact hdB q h1
            · intro q hq2
              exact absurd hq2 (List.not_mem_nil q)
          · refine ih q2 (j + 1) L (new ++ B) A2 ?_ hAd hj2 ?_ hvq2 hA2d ?_
            · rw [hres]
              simp
            · rw [hres]
              exact List.mem_append.mpr (Or.inl hchild)
            · intro q hq2
              rcases List.mem_append.mp hq2 with h1 | h1
              · exact hdnew q h1
              · exact hdB q h1
        · have hpn3 : pathState start (P.take j) ∈ B ++ A2 := by
            have hq4 : pathState start (P.take j) ∈ (B ++ A2) ++ [e] := by
              rw [← hqe]
              exact hpn
            rcases List.mem_append.mp hq4 with h1 | h1
            · exact h1
            · rw [List.mem_singleton] at h1
              exact absurd h1 hpe
          by_cases hAd : A2 = []
          · have hpnB : pathState start (P.take j) ∈ B := by
              rw [hAd] at hpn3
              simpa using hpn3
            refine ih q2 j (L + 1) [] (new ++ B) ?_ ?_ hj ?_ hvq2 ?_ ?_
            · rw [hres, hAd]
              simp
            · intro hcon
              have : B = [] := by
                rcases List.append_eq_nil.mp hcon with ⟨-, h1⟩
                exact h1
              rw [this] at hpnB
              exact absurd hpnB (List.not_mem_nil _)
            · rw [hres]
              exact List.mem_append.mpr (Or.inr (List.mem_append.mpr (Or.inl hpnB)))
            · intro q hq2
              rcases List.mem_append.mp hq2 with h1 | h1
              · exact hdnew q h1
              · exact hdB q h1
            · intro q hq2
              exact absurd hq2 (List.not_mem_nil q)
          · refine ih q2 j L (new ++ B) A2 ?_ hAd hj ?_ hvq2 hA2d ?_
            · rw [hres]
              simp
            · rw [hres]
              exact List.mem_append.mpr (Or.inr hpn3)
            · intro q hq2
              rcases List.mem_append.mp hq2 with h1 | h1
              · exact hdnew q h1
              · exact hdB q h1

/-- Any state returned by `breadthFirst` sits at depth exactly the minimum
number of agent-swap moves from the start board to the goal board. -/
theorem breadthFirst_opt {hashFn : Board → Nat} {start goal : Board}
    {fuel : Nat} {s : PuzzleState} (hinj : Function.Injective hashFn)
    (h : breadthFirst hashFn start goal fuel = .found s) :
    s.depth = sInf {n | ReachableIn n start goal} := by
  have hs := breadthFirst_sound h
  have hb : s.getState = goal := hinj hs.2
  have hreach : ReachableIn s.depth start goal := by
    have hr := validChain_reach hs.1
    rwa [hb] at hr
  have hle : sInf {n | ReachableIn n start goal} ≤ s.depth :=
    Nat.sInf_le hreach
  unfold breadthFirst at h
  by_cases h0 : (PuzzleState.root start).getHash hashFn = hashFn goal
  · rw [if_pos h0] at h
    have hrs : PuzzleState.root start = s := SearchResult.found.inj h
    subst hrs
    have h00 : ReachableIn 0 start goal := hinj h0
    have hz : sInf {n | ReachableIn n start goal} = 0 :=
      Nat.eq_zero_of_le_zero (Nat.sInf_le h00)
    rw [hz]
    rfl
  · rw [if_neg h0] at h
    have hne : {n | ReachableIn n start goal}.Nonempty := ⟨s.depth, hreach⟩
    have hdmem : ReachableIn (sInf {n | ReachableIn n start goal})
        start goal := Nat.sInf_mem hne
    have hmin0 : ∀ m, ReachableIn m start goal →
        sInf {n | ReachableIn n start goal} ≤ m := fun m hm => Nat.sInf_le hm
    have hd1 : 1 ≤ sInf {n | ReachableIn n start goal} := by
      rcases Nat.eq_zero_or_pos (sInf {n | ReachableIn n start goal}) with
        h00 | h01
      · exfalso
        rw [h00] at hdmem
        have hsg : start = goal := hdmem
        exact h0 (congrArg hashFn hsg)
      · exact h01
    obtain ⟨l, hlen, hchain, hlast⟩ := reachableIn_iff_path.mp hdmem
    obtain ⟨l2, hl2len, hchain2, hlast2, hnd2⟩ :=
      exists_nodup_path l.length start goal l (le_refl _) hchain hlast
    have hl2reach : ReachableIn l2.length start goal :=
      reachableIn_iff_path.mpr ⟨l2, rfl, hchain2, hlast2⟩
    have hl2d : l2.length = sInf {n | ReachableIn n start goal} := by
      have h1 := hmin0 _ hl2reach
      omega
    have hmin2 : ∀ m, ReachableIn m start goal → l2.length ≤ m := by
      intro m hm
      rw [hl2d]
      exact hmin0 m hm
    have hloop := bfsLoop_opt hinj hchain2 hlast2 hnd2 hmin2 fuel
      [PuzzleState.root start] 0 0 [] [PuzzleState.root start]
      (by simp) (by simp) (by omega)
      (by simp [pathState])
      (by intro q hq; rw [List.mem_singleton] at hq; subst hq; exact rfl)
      (by intro q hq; rw [List.mem_singleton] at hq; subst hq; rfl)
      (by intro q hq; exact absurd hq (List.not_mem_nil q))
    rcases hloop with hof | ⟨s2, hs2, hdep⟩
    · rw [h] at hof
      exact absurd hof (by simp)
    · rw [h] at hs2
      have hss : s = s2 := SearchResult.found.inj hs2
      rw [hss, hdep, hl2d]

/-! ## Claim C1: breadth-first returns a shortest solution -/

/-- C1: for every 16-cell one-agent start and goal board (under the
collision-free model of the hash), whenever the breadth-first searcher
returns a goal-reaching state, the number of predecessor links from that
state back to the root — the move count of the returned solution — equals
the minimum number of single agent-swap moves transforming the start
board into the goal board. -/
theorem C1_bfs_shortest {hashFn : Board → Nat} {start goal : Board}
    {fuel : Nat} {s : PuzzleState}
    (_hvs : validBoard start) (_hvg : validBoard goal)
    (hinj : Function.Injective hashFn)
    (h : breadthFirst hashFn start goal fuel = .found s) :
    s.depth = sInf {n | ReachableIn n start goal} :=
  breadthFirst_opt hinj h

/-- Witness for C1 at a concrete one-move instance. -/
theorem C1_witness :
    (PuzzleState.succ (.root boardA) boardB).depth =
      sInf {n | ReachableIn n boardA boardB} :=
  @C1_bfs_shortest hashInj boardA boardB 5
    (PuzzleState.succ (.root boardA) boardB) (by decide) (by decide)
    hashInj_injective (by decide)

/-! ## Claim C8: breadth-first solutions are no longer than A* solutions -/

/-- C8: whenever both searchers succeed on the same start/goal pair (under
the collision-free model of the hash), the move count of the path the
breadth-first searcher returns is at most the move count of the path the
A* searcher returns. -/
theorem C8_bfs_le_astar {hashFn : Board → Nat} {start goal : Board}
    {f1 f2 : Nat} {s t : PuzzleState} (hinj : Function.Injective hashFn)
    (hbfs : breadthFirst hashFn start goal f1 = .found s)
    (hast : aStar hashFn start goal f2 = .found t) :
    s.depth ≤ t.depth := by
  have h1 := breadthFirst_opt hinj hbfs
  have hs := aStar_sound hast
  have hb : t.getState = goal := hinj hs.2
  have hreach : ReachableIn t.depth start goal := by
    have hr := validChain_reach hs.1
    rwa [hb] at hr
  rw [h1]
  exact Nat.sInf_le hreach

/-- Witness for C8 at a concrete instance solved by both searchers. -/
theorem C8_witness :
    (PuzzleState.succ (.root boardA) boardB).depth ≤
      (PuzzleState.succ (.root boardA) boardB).depth :=
  @C8_bfs_le_astar hashInj boardA boardB 5 5
    (PuzzleState.succ (.root boardA) boardB)
    (PuzzleState.succ (.root boardA) boardB)
    hashInj_injective (by decide) (by decide)
